import Mathlib

/-!
Verification of the grns task-tracking service specification against the
repository's code.

The repository ships its canonicalization reference model and companion CLI
in Python (`tests_py/test_properties_git_refs.py`, `scripts/grnsw.py`); those
functions are embedded here directly.  The server engine itself (task store,
batch close/reopen, git-ref engine, import/export pipeline) is not part of
the source tree, so it is modelled from the specification (see the
`Modelled from the spec:` doc comments) and the claims about it are settled
against that model.

Machine strings are embedded as `String`/`List Char`; timestamps as `Nat`
ticks; fallible operations return `Option`/`Except`.
-/

namespace Grns

/-! ## Character-level helpers shared by every normalization surface -/

/-- Python `str.isspace`, restricted to the ASCII whitespace characters
(space, tab, LF, CR, VT, FF) that can occur in the repository's inputs. -/
def isSpacePy (c : Char) : Bool :=
  c = ' ' || c = '\t' || c = '\n' || c = '\r' || c.toNat = 11 || c.toNat = 12

/-- The 26 ASCII uppercase letters. -/
def upperAscii : List Char :=
  ['A', 'B', 'C', 'D', 'E', 'F', 'G', 'H', 'I', 'J', 'K', 'L', 'M',
   'N', 'O', 'P', 'Q', 'R', 'S', 'T', 'U', 'V', 'W', 'X', 'Y', 'Z']

/-- Python `str.lower` on a single character, restricted to ASCII (the only
case mapping exercised by the repository's slugs, hashes and labels). -/
def lowerChar : Char → Char
  | 'A' => 'a'
  | 'B' => 'b'
  | 'C' => 'c'
  | 'D' => 'd'
  | 'E' => 'e'
  | 'F' => 'f'
  | 'G' => 'g'
  | 'H' => 'h'
  | 'I' => 'i'
  | 'J' => 'j'
  | 'K' => 'k'
  | 'L' => 'l'
  | 'M' => 'm'
  | 'N' => 'n'
  | 'O' => 'o'
  | 'P' => 'p'
  | 'Q' => 'q'
  | 'R' => 'r'
  | 'S' => 's'
  | 'T' => 't'
  | 'U' => 'u'
  | 'V' => 'v'
  | 'W' => 'w'
  | 'X' => 'x'
  | 'Y' => 'y'
  | 'Z' => 'z'
  | c => c

/-- Python `value.strip()`: drop leading and trailing whitespace. -/
def pyStrip (l : List Char) : List Char :=
  ((l.dropWhile isSpacePy).reverse.dropWhile isSpacePy).reverse

/-- Python `value.rstrip("/")`: drop every trailing slash. -/
def rstripSlash (l : List Char) : List Char :=
  (l.reverse.dropWhile (· == '/')).reverse

/-- Python `value.strip("/")`: drop leading and trailing slashes. -/
def stripSlashes (l : List Char) : List Char :=
  ((l.dropWhile (· == '/')).reverse.dropWhile (· == '/')).reverse

/-- Python `value.split("@")[-1]`: the segment after the last `@`
(the whole string when no `@` occurs). -/
def afterLastAt (l : List Char) : List Char :=
  (l.reverse.takeWhile (· != '@')).reverse

/-! ## Repo slug canonicalization
(`canonical_repo_slug` in `src/tests_py/test_properties_git_refs.py`) -/

/-- The characters of the `".git"` suffix stripped in step 4. -/
def gitSuffix : List Char := ['.', 'g', 'i', 't']

/-- The characters of the `"://"` marker selecting the URL branch. -/
def urlMarker : List Char := [':', '/', '/']

/-- Characters allowed after the first one in a URL scheme, as accepted by
Python `urllib.parse`. -/
def urlSchemeChar (c : Char) : Bool :=
  c.isAlphanum || c == '+' || c == '-' || c == '.'

/-- Model of the scheme-splitting step of Python `urllib.parse.urlparse`:
when the text before the first `:` is a well-formed scheme, drop it together
with the colon, otherwise leave the input unchanged. -/
def urlStripScheme (l : List Char) : List Char :=
  let before := l.takeWhile (· != ':')
  if before.length < l.length ∧ before ≠ [] ∧
      (before.headD 'x').isAlpha ∧ before.all urlSchemeChar then
    l.drop (before.length + 1)
  else l

/-- Model of netloc extraction in Python `urllib.parse.urlparse`: when the
remainder starts with `//`, the netloc runs up to the next `/`, `?` or `#`. -/
def urlNetlocSplit (l : List Char) : List Char × List Char :=
  match l with
  | '/' :: '/' :: rest =>
    let netloc := rest.takeWhile (fun c => c != '/' && c != '?' && c != '#')
    (netloc, rest.drop netloc.length)
  | _ => ([], l)

/-- Model of `parsed.hostname`: the netloc with userinfo (before the last
`@`) and port (after `:`) removed, lowercased.  IPv6 bracket hosts are not
modelled (the repository never uses them); an absent hostname is the empty
list. -/
def urlHostOf (netloc : List Char) : List Char :=
  ((afterLastAt netloc).takeWhile (· != ':')).map lowerChar

/-- Model of `parsed.path`: the remainder up to the query or fragment. -/
def urlPathOf (l : List Char) : List Char :=
  l.takeWhile (fun c => c != '?' && c != '#')

/-- Model of Python `urllib.parse.urlparse` restricted to the
`(hostname, path)` pair read by `canonical_repo_slug`. -/
def urlHostPath (l : List Char) : List Char × List Char :=
  let rest := urlStripScheme l
  let np := urlNetlocSplit rest
  (urlHostOf np.1, urlPathOf np.2)

/-- Validation run on the three slug segments: exactly three parts, each
non-empty and free of whitespace. -/
def slugCheck (parts : List (List Char)) : Bool :=
  parts.length == 3 && parts.all (fun p => !p.isEmpty && p.all (fun c => !isSpacePy c))

/-- Normalization step 4 of `canonical_repo_slug`:
`value.strip().lower().rstrip("/")`. -/
def slugV1 (v : List Char) : List Char :=
  rstripSlash ((pyStrip v).map lowerChar)

/-- Normalization steps 4–5 of `canonical_repo_slug`: `slugV1`, then strip
one trailing `.git`. -/
def slugV2 (v : List Char) : List Char :=
  if gitSuffix <:+ slugV1 v then (slugV1 v).take ((slugV1 v).length - 4) else slugV1 v

/-- Common tail of `canonical_repo_slug`: normalize via `slugV2`, then
validate `host/owner/name` and rejoin the parts. -/
def slugFinalize (v : List Char) : Option (List Char) :=
  if slugCheck ((slugV2 v).splitOn '/') then
    some (List.intercalate ['/'] ((slugV2 v).splitOn '/'))
  else none

/-- Character-level embedding of `canonical_repo_slug` from
`src/tests_py/test_properties_git_refs.py`: URL inputs take host plus
slash-trimmed path, SCP-style inputs (`@` and `:` present) split at the
first `:` and take the text after the last `@` of the left part as host,
anything else is used as-is; the result is trimmed, lowercased, slash- and
`.git`-stripped and validated as `host/owner/name`.  `none` models the
`ValueError` raises.  `slugFromUrl` is the URL branch: host plus
slash-trimmed path. -/
def slugFromUrl (value : List Char) : Option (List Char) :=
  if (pyStrip (urlHostPath value).1).isEmpty then none
  else slugFinalize (pyStrip (urlHostPath value).1 ++ '/' :: stripSlashes (urlHostPath value).2)

/-- SCP branch of `canonical_repo_slug`: split at the first `:`, host is
the text after the last `@` of the left part, stripped. -/
def slugFromScp (value : List Char) : Option (List Char) :=
  slugFinalize (pyStrip (afterLastAt (value.takeWhile (· != ':'))) ++
    '/' :: stripSlashes ((value.dropWhile (· != ':')).drop 1))

/-- Branch selection of `canonical_repo_slug`: empty input is rejected, a
`://` marker selects the URL branch, `@` together with `:` selects the SCP
branch, anything else is finalized as-is. -/
def canonical_repo_slug_chars (raw : List Char) : Option (List Char) :=
  if (pyStrip raw).isEmpty then none
  else if urlMarker <:+: pyStrip raw then slugFromUrl (pyStrip raw)
  else if '@' ∈ pyStrip raw ∧ ':' ∈ pyStrip raw then slugFromScp (pyStrip raw)
  else slugFinalize (pyStrip raw)

/-- String-level wrapper of the `canonical_repo_slug` embedding. -/
def canonical_repo_slug (raw : String) : Option String :=
  (canonical_repo_slug_chars raw.data).map (fun l => String.mk l)

/-! ## Token normalization shared by labels, statuses, types and hashes -/

/-- Python `value.strip()` on a `String`. -/
def pyStripStr (s : String) : String := String.mk (pyStrip s.data)

/-- Python `value.strip().lower()`: the normalization applied to labels,
statuses, types, relations and hashes. -/
def normToken (s : String) : String := String.mk ((pyStrip s.data).map lowerChar)

/-! ## `merge_labels` from `src/scripts/grnsw.py` -/

/-- One iteration of the inner loop of `merge_labels`: the accumulator keeps
the `seen` set (first component, as a list) and the `out` list; a normalized
label is appended when non-empty and unseen. -/
def mergeStep (acc : List String × List String) (label : String) : List String × List String :=
  if normToken label = "" then acc
  else if normToken label ∈ acc.1 then acc
  else (normToken label :: acc.1, acc.2 ++ [normToken label])

/-- Embedding of `merge_labels` from `src/scripts/grnsw.py`: iterate over the
groups, then over each group's labels, normalizing with `strip().lower()`,
dropping empties and keeping the first occurrence of each distinct value in
encounter order. -/
def merge_labels (groups : List (List String)) : List String :=
  (groups.foldl (fun acc group => group.foldl mergeStep acc) ([], [])).2

/-- Specification-side description of first-occurrence deduplication: keep
each element not yet seen, in order. -/
def dedupFirst (seen : List String) : List String → List String
  | [] => []
  | x :: xs => if x ∈ seen then dedupFirst seen xs else x :: dedupFirst (x :: seen) xs

/-! ## Task engine model

The server engine is not part of the source tree (only its Python tests and
CLI clients are), so the engine below is modelled from the specification
(§3–§4.6): tasks with canonical labels, the status state machine with its
`closed_at` coupling, all-or-nothing batch close/reopen, the git-ref
subsystem with its per-task 5-tuple uniqueness key, and the import pipeline
with dedupe and orphan-handling policies. -/

/-- Modelled from the spec: the task status enumeration
`open, in_progress, blocked, deferred, closed, pinned, tombstone`. -/
inductive Status where
  | open_
  | in_progress
  | blocked
  | deferred
  | closed
  | pinned
  | tombstone
  deriving DecidableEq, Repr

/-- Modelled from the spec: status canonicalization — trim, lowercase,
reject values outside the enumerated set. -/
def parseStatus (s : String) : Option Status :=
  let v := normToken s
  if v = "open" then some .open_
  else if v = "in_progress" then some .in_progress
  else if v = "blocked" then some .blocked
  else if v = "deferred" then some .deferred
  else if v = "closed" then some .closed
  else if v = "pinned" then some .pinned
  else if v = "tombstone" then some .tombstone
  else none

/-- Modelled from the spec: the task type enumeration. -/
def validTypes : List String := ["bug", "feature", "task", "epic", "chore"]

/-- Modelled from the spec: a stored git reference; `resolved_commit` is
kept canonical, with the empty string standing for an absent value. -/
structure GitRef where
  repo : String
  relation : String
  object_type : String
  object_value : String
  resolved_commit : String
  deriving DecidableEq, Repr

/-- The per-task uniqueness key of a git reference:
`(repo, relation, object_type, object_value, resolved_commit_or_empty)`. -/
def refKey (r : GitRef) : String × String × String × String × String :=
  (r.repo, r.relation, r.object_type, r.object_value, r.resolved_commit)

/-- Modelled from the spec: a stored task row together with its owned
labels, dependency parents and git references. -/
structure Task where
  id : String
  title : String
  ttype : String
  priority : Nat
  status : Status
  description : String
  labels : List String
  custom : List (String × String)
  deps : List String
  source_repo : Option String
  created_at : Nat
  updated_at : Nat
  closed_at : Option Nat
  refs : List GitRef
  deriving DecidableEq, Repr

/-- Modelled from the spec: the error taxonomy relevant to the claims. -/
inductive ErrCode where
  | invalid_argument (msg : String)
  | not_found
  | conflict
  deriving DecidableEq, Repr

deriving instance DecidableEq for Except

/-- Lookup of a task by id (first match in the store list). -/
def findTask (st : List Task) (id : String) : Option Task :=
  st.find? (fun t => t.id == id)

/-- Update every task whose id matches, leaving the rest untouched. -/
def mapTask (st : List Task) (id : String) (f : Task → Task) : List Task :=
  st.map (fun t => if t.id = id then f t else t)

/-! ### Label canonicalization -/

/-- Strict lexicographic order on character lists, used to keep label lists
sorted. -/
def ltChars : List Char → List Char → Bool
  | [], [] => false
  | [], _ :: _ => true
  | _ :: _, [] => false
  | a :: as, b :: bs => if a < b then true else if b < a then false else ltChars as bs

/-- Strict lexicographic order on strings. -/
def labelLt (a b : String) : Bool := ltChars a.data b.data

/-- Insertion into a strictly sorted list, dropping duplicates. -/
def linsert (x : String) : List String → List String
  | [] => [x]
  | y :: ys => if labelLt x y then x :: y :: ys else if x = y then y :: ys else y :: linsert x ys

/-- Modelled from the spec: "Label: trim, lowercase; drop empties; final
task label set = sorted unique lowercased values." -/
def normalizeLabels (ls : List String) : List String :=
  ((ls.map normToken).filter (fun l => l ≠ "")).foldl (fun acc l => linsert l acc) []

/-! ### Hash and repo helpers -/

/-- Lowercase hexadecimal digit test. -/
def isHexLower (c : Char) : Bool := c.isDigit || ('a' ≤ c && c ≤ 'f')

/-- Modelled from the spec: a canonical git hash is exactly 40 lowercase
hex characters. -/
def isGitHash (s : String) : Bool := s.length == 40 && s.data.all isHexLower

/-- Modelled from the spec: "Git hash: trim, lowercase". -/
def normalizeHash (s : String) : String := normToken s

/-! ### Create -/

/-- Modelled from the spec: the body of a Create request after JSON
decoding; absent fields are `none`. -/
structure CreateReq where
  title : String
  rtype : Option String
  priority : Option Nat
  rstatus : Option String
  description : Option String
  labels : List String
  custom : List (String × String)
  deps : List String
  source_repo : Option String
  deriving Repr

/-- Modelled from the spec: Create — canonicalizer applied to every field,
defaults `status=open`, `priority=2`, `type=task`, timestamps set to `now`,
`closed_at` coupled to the status, `conflict` when the id already exists.
The id to use (client-supplied or generated) is a parameter; `mkTask`
materializes the stored row. -/
def mkTask (req : CreateReq) (id : String) (now : Nat) (stat : Status)
    (srepo : Option String) : Task :=
  { id := id, title := pyStripStr req.title, ttype := normToken (req.rtype.getD "task"),
    priority := req.priority.getD 2, status := stat,
    description := req.description.getD "", labels := normalizeLabels req.labels,
    custom := req.custom, deps := req.deps, source_repo := srepo,
    created_at := now, updated_at := now,
    closed_at := if stat = Status.closed then some now else none, refs := [] }

/-- Modelled from the spec: Create (validation and insertion around
`mkTask`). -/
def createTask (req : CreateReq) (id : String) (now : Nat) (st : List Task) :
    List Task × Except ErrCode Task :=
  if pyStripStr req.title = "" then
    (st, .error (.invalid_argument "title must not be empty"))
  else if normToken (req.rtype.getD "task") ∉ validTypes then
    (st, .error (.invalid_argument "invalid type"))
  else if 4 < req.priority.getD 2 then
    (st, .error (.invalid_argument "priority must be between 0 and 4"))
  else
    match match req.rstatus with
          | none => some Status.open_
          | some s => parseStatus s with
    | none => (st, .error (.invalid_argument "invalid status"))
    | some stat =>
      match match req.source_repo with
            | none => some none
            | some r => (canonical_repo_slug r).map some with
      | none => (st, .error (.invalid_argument "invalid repo"))
      | some srepo =>
        if (findTask st id).isSome then (st, .error .conflict)
        else (st ++ [mkTask req id now stat srepo], .ok (mkTask req id now stat srepo))

/-! ### Update (PATCH) -/

/-- Modelled from the spec: a PATCH body; `none` marks an absent field. -/
structure Patch where
  title : Option String
  rtype : Option String
  priority : Option Nat
  rstatus : Option String
  description : Option String
  labels : Option (List String)
  custom : Option (List (String × String))
  deriving Repr

/-- True when the patch carries no recognized field. -/
def patchEmpty (p : Patch) : Bool :=
  p.title.isNone && p.rtype.isNone && p.priority.isNone && p.rstatus.isNone &&
    p.description.isNone && p.labels.isNone && p.custom.isNone

/-- Validation of the patched title: absent keeps the stored title. -/
def vTitle (t : Task) (p : Patch) : Except ErrCode String :=
  match p.title with
  | none => .ok t.title
  | some s =>
    if pyStripStr s = "" then .error (.invalid_argument "title must not be empty")
    else .ok (pyStripStr s)

/-- Validation of the patched type: absent keeps the stored type. -/
def vType (t : Task) (p : Patch) : Except ErrCode String :=
  match p.rtype with
  | none => .ok t.ttype
  | some s =>
    if normToken s ∈ validTypes then .ok (normToken s)
    else .error (.invalid_argument "invalid type")

/-- Validation of the patched priority: absent keeps the stored value. -/
def vPriority (t : Task) (p : Patch) : Except ErrCode Nat :=
  match p.priority with
  | none => .ok t.priority
  | some n =>
    if 4 < n then .error (.invalid_argument "priority must be between 0 and 4")
    else .ok n

/-- Validation of the patched status: absent keeps the stored status. -/
def vStatus (t : Task) (p : Patch) : Except ErrCode Status :=
  match p.rstatus with
  | none => .ok t.status
  | some s =>
    match parseStatus s with
    | some v => .ok v
    | none => .error (.invalid_argument "invalid status")

/-- Modelled from the spec: merge a PATCH into a task — only present fields
are touched, a status transition to `closed` sets `closed_at = now` and any
other transition clears it, `updated_at := now`. -/
def applyPatch (t : Task) (p : Patch) (now : Nat) : Except ErrCode Task :=
  match vTitle t p with
  | .error e => .error e
  | .ok titleV =>
    match vType t p with
    | .error e => .error e
    | .ok tyV =>
      match vPriority t p with
      | .error e => .error e
      | .ok prV =>
        match vStatus t p with
        | .error e => .error e
        | .ok statV =>
          .ok { t with
                title := titleV, ttype := tyV, priority := prV, status := statV,
                description := p.description.getD t.description,
                labels := match p.labels with
                          | none => t.labels
                          | some ls => normalizeLabels ls,
                custom := p.custom.getD t.custom,
                closed_at := match p.rstatus with
                             | none => t.closed_at
                             | some _ => if statV = Status.closed then some now else none,
                updated_at := now }

/-- Modelled from the spec: Update/PATCH — `not_found` on a missing id,
`invalid_argument` with message "no fields to update" on an empty patch,
otherwise merge via `applyPatch`.  The state is unchanged on error. -/
def updateTask (id : String) (p : Patch) (now : Nat) (st : List Task) :
    List Task × Except ErrCode Task :=
  match findTask st id with
  | none => (st, .error .not_found)
  | some t =>
    if patchEmpty p then (st, .error (.invalid_argument "no fields to update"))
    else
      match applyPatch t p now with
      | .error e => (st, .error e)
      | .ok t2 => (mapTask st id (fun _ => t2), .ok t2)

/-! ### Batch close / reopen -/

/-- Modelled from the spec: closing one task — a task whose status is
already `closed` is left untouched, otherwise status becomes `closed` and
`closed_at := now`. -/
def closeTask (now : Nat) (t : Task) : Task :=
  if t.status = Status.closed then t
  else { t with status := Status.closed, closed_at := some now, updated_at := now }

/-- Modelled from the spec: reopening one task — status becomes `open`,
`closed_at` is cleared. -/
def reopenTask (now : Nat) (t : Task) : Task :=
  { t with status := Status.open_, closed_at := none, updated_at := now }

/-- Transactional body shared by batch close and reopen: process the ids in
order inside the transaction, aborting with `not_found` as soon as an id is
missing. -/
def batchGo (f : Task → Task) : List String → List Task → Except ErrCode (List Task)
  | [], st => .ok st
  | id :: rest, st =>
    match findTask st id with
    | none => .error .not_found
    | some _ => batchGo f rest (mapTask st id f)

/-- Modelled from the spec: batch close without commit — all-or-nothing:
when any id is missing the transaction is rolled back and the store is
returned unchanged with `not_found`. -/
def closeBatch (ids : List String) (now : Nat) (st : List Task) :
    List Task × Except ErrCode Unit :=
  match batchGo (closeTask now) ids st with
  | .ok st2 => (st2, .ok ())
  | .error e => (st, .error e)

/-- Modelled from the spec: batch reopen, symmetric to close. -/
def reopenBatch (ids : List String) (now : Nat) (st : List Task) :
    List Task × Except ErrCode Unit :=
  match batchGo (reopenTask now) ids st with
  | .ok st2 => (st2, .ok ())
  | .error e => (st, .error e)

/-! ### Close with commit annotation -/

/-- The `closed_by` commit annotation ref written by close-with-commit. -/
def annotateRef (repo commit : String) : GitRef :=
  { repo := repo, relation := "closed_by", object_type := "commit",
    object_value := commit, resolved_commit := "" }

/-- Insert the close annotation into one task unless an equivalent ref (by
5-tuple key) already exists; returns the task and the number (0 or 1) of
newly inserted refs. -/
def annotateTask (repo commit : String) (t : Task) : Task × Nat :=
  if refKey (annotateRef repo commit) ∈ t.refs.map refKey then (t, 0)
  else ({ t with refs := t.refs ++ [annotateRef repo commit] }, 1)

/-- The repo used for one task's annotation: the request repo when present,
else the task's own `source_repo`. -/
def repoForTask (reqRepo : Option String) (t : Task) : Option String :=
  match reqRepo with
  | some r => some r
  | none => t.source_repo

/-- The annotation repo available for the task with the given id. -/
def taskRepo (st : List Task) (reqRepo : Option String) (id : String) : Option String :=
  (findTask st id).bind (fun t => repoForTask reqRepo t)

/-- Close-and-annotate step applied to one target task: close it, then
insert the annotation using the request repo or the task's `source_repo`. -/
def annStep (reqRepo : Option String) (commit : String) (now : Nat) (t : Task) :
    Task × Nat :=
  annotateTask ((repoForTask reqRepo t).getD "") commit (closeTask now t)

/-- Fold closing and annotating each target task in order; counts newly
inserted refs. -/
def closeAnnGo (reqRepo : Option String) (commit : String) (now : Nat) :
    List String → List Task → List Task × Nat
  | [], st => (st, 0)
  | id :: rest, st =>
    match findTask st id with
    | none => closeAnnGo reqRepo commit now rest st
    | some t =>
      ((closeAnnGo reqRepo commit now rest
          (mapTask st id (fun _ => (annStep reqRepo commit now t).1))).1,
       (annStep reqRepo commit now t).2 +
         (closeAnnGo reqRepo commit now rest
           (mapTask st id (fun _ => (annStep reqRepo commit now t).1))).2)

/-- Modelled from the spec: batch close with a commit — validate the commit
as a git hash, canonicalize the request repo when supplied, fail
`not_found` when any id is missing, fail `invalid_argument` when a target
has no usable repo, then close every target and insert one `closed_by`
annotation per target unless an equivalent ref exists; the reported number
is the count of newly inserted refs. -/
def closeWithCommit (ids : List String) (commitRaw : String) (repoRaw : Option String)
    (now : Nat) (st : List Task) : List Task × Except ErrCode Nat :=
  if ¬ isGitHash (normalizeHash commitRaw) then
    (st, .error (.invalid_argument "invalid commit"))
  else
    match match repoRaw with
          | none => some none
          | some r => (canonical_repo_slug r).map some with
    | none => (st, .error (.invalid_argument "invalid repo"))
    | some reqRepo =>
      if ¬ ids.all (fun id => (findTask st id).isSome) then (st, .error .not_found)
      else if ¬ ids.all (fun id => (taskRepo st reqRepo id).isSome) then
        (st, .error (.invalid_argument "repo is required"))
      else
        ((closeAnnGo reqRepo (normalizeHash commitRaw) now ids st).1,
         .ok (closeAnnGo reqRepo (normalizeHash commitRaw) now ids st).2)

/-! ### Git-ref insertion -/

/-- Modelled from the spec: a git-ref creation request; `none` marks an
absent field. -/
structure GitRefReq where
  repo : Option String
  relation : String
  object_type : String
  object_value : String
  resolved_commit : Option String
  deriving Repr

/-- Modelled from the spec: the built-in git relations. -/
def builtinRelations : List String :=
  ["design_doc", "implements", "fix_commit", "closed_by", "introduced_by", "related"]

/-- Characters allowed in an `x-` relation suffix: `[a-z0-9_-]`. -/
def isRelChar (c : Char) : Bool :=
  ('a' ≤ c && c ≤ 'z') || c.isDigit || c == '_' || c == '-'

/-- Modelled from the spec: relation canonicalization — trim, lowercase,
accept the built-in set or `x-<suffix>`. -/
def canonRelation (s : String) : Option String :=
  let v := normToken s
  if v ∈ builtinRelations then some v
  else match v.data with
    | 'x' :: '-' :: rest => if rest ≠ [] ∧ rest.all isRelChar then some v else none
    | _ => none

/-- Modelled from the spec: hash-valued object canonicalization. -/
def canonHash (s : String) : Option String :=
  let v := normToken s
  if isGitHash v then some v else none

/-- Modelled from the spec: path object values must not begin with `/` nor
contain `..` segments; POSIX-normalize by dropping empty and `.`
segments. -/
def canonPath (s : String) : Option String :=
  match s.data with
  | '/' :: _ => none
  | l =>
    let segs := l.splitOn '/'
    if segs.any (fun seg => seg = ['.', '.']) then none
    else some (String.mk (List.intercalate ['/']
      (segs.filter (fun seg => !seg.isEmpty && seg ≠ ['.']))))

/-- Modelled from the spec: branch/tag object values are trimmed and must
contain no whitespace. -/
def canonBranchTag (s : String) : Option String :=
  let v := pyStripStr s
  if v.data.any isSpacePy then none else some v

/-- Modelled from the spec: object-value canonicalization dispatched on the
object type. -/
def canonObjectValue (otype oval : String) : Option String :=
  if otype = "commit" ∨ otype = "blob" ∨ otype = "tree" then canonHash oval
  else if otype = "path" then canonPath oval
  else if otype = "branch" ∨ otype = "tag" then canonBranchTag oval
  else none

/-- Modelled from the spec: `resolved_commit` — absent and empty are
equivalent (canonical empty string), anything else must be a git hash. -/
def canonResolved (r : Option String) : Option String :=
  match r with
  | none => some ""
  | some s => if normToken s = "" then some "" else canonHash s

/-- Repo determination (spec §4.4 step 1): request repo when present, else
the owning task's `source_repo`, else `invalid_argument`. -/
def vRawRepo (t : Task) (req : GitRefReq) : Except ErrCode String :=
  match req.repo with
  | some r => .ok r
  | none =>
    match t.source_repo with
    | some r => .ok r
    | none => .error (.invalid_argument "repo is required")

/-- Repo canonicalization (spec §4.4 step 2). -/
def vRepo (t : Task) (req : GitRefReq) : Except ErrCode String :=
  match vRawRepo t req with
  | .error e => .error e
  | .ok r =>
    match canonical_repo_slug r with
    | some c => .ok c
    | none => .error (.invalid_argument "invalid repo")

/-- Relation validation (spec §4.4 step 4). -/
def vRelation (req : GitRefReq) : Except ErrCode String :=
  match canonRelation req.relation with
  | some v => .ok v
  | none => .error (.invalid_argument "invalid relation")

/-- Object-value canonicalization (spec §4.4 step 3). -/
def vObject (req : GitRefReq) : Except ErrCode String :=
  match canonObjectValue (normToken req.object_type) req.object_value with
  | some v => .ok v
  | none => .error (.invalid_argument "invalid object value")

/-- Resolved-commit validation (spec §4.4 step 5). -/
def vResolved (req : GitRefReq) : Except ErrCode String :=
  match canonResolved req.resolved_commit with
  | some v => .ok v
  | none => .error (.invalid_argument "invalid resolved commit")

/-- Modelled from the spec (§4.4 steps 1–5): canonicalize a git-ref request
against its owning task into a stored ref. -/
def canonGitRef (t : Task) (req : GitRefReq) : Except ErrCode GitRef :=
  match vRepo t req with
  | .error e => .error e
  | .ok repo =>
    match vRelation req with
    | .error e => .error e
    | .ok rel =>
      match vObject req with
      | .error e => .error e
      | .ok ov =>
        match vResolved req with
        | .error e => .error e
        | .ok rc =>
          .ok { repo := repo, relation := rel, object_type := normToken req.object_type,
                object_value := ov, resolved_commit := rc }

/-- Modelled from the spec (§4.4 steps 6–7): insert a canonicalized ref
into its task; `conflict` when an equivalent 5-tuple key exists on the same
task, `not_found` when the task is missing. -/
def insertGitRef (tid : String) (req : GitRefReq) (st : List Task) :
    List Task × Except ErrCode GitRef :=
  match findTask st tid with
  | none => (st, .error .not_found)
  | some t =>
    match canonGitRef t req with
    | .error e => (st, .error e)
    | .ok r =>
      if refKey r ∈ t.refs.map refKey then (st, .error .conflict)
      else (mapTask st tid (fun u => { u with refs := u.refs ++ [r] }), .ok r)

/-! ### Label add / remove -/

/-- Modelled from the spec: add labels to a task; the result is
re-normalized (sorted unique lowercased). -/
def addLabels (id : String) (ls : List String) (now : Nat) (st : List Task) :
    List Task × Except ErrCode Unit :=
  match findTask st id with
  | none => (st, .error .not_found)
  | some _ =>
    (mapTask st id (fun u =>
      { u with labels := normalizeLabels (u.labels ++ ls), updated_at := now }), .ok ())

/-- Modelled from the spec: remove the named labels (normalized first) from
a task. -/
def removeLabels (id : String) (ls : List String) (now : Nat) (st : List Task) :
    List Task × Except ErrCode Unit :=
  match findTask st id with
  | none => (st, .error .not_found)
  | some _ =>
    let rm := ls.map normToken
    (mapTask st id (fun u =>
      { u with labels := u.labels.filter (fun l => !rm.contains l), updated_at := now }), .ok ())

/-! ### Import pipeline -/

/-- Modelled from the spec: one newline-delimited import record after JSON
decoding; `none` marks an absent field; `deps` carries the parent ids of
the embedded dep edges (`type` is always `blocks`). -/
structure ImportRecord where
  id : String
  title : String
  rstatus : String
  rtype : String
  priority : Nat
  description : Option String
  labels : Option (List String)
  custom : Option (List (String × String))
  deps : Option (List String)
  updated_at : Option Nat
  created_at : Option Nat
  deriving Repr

/-- Modelled from the spec: the dedupe policy knob. -/
inductive DedupeMode where
  | skip
  | overwrite
  | error
  deriving DecidableEq, Repr

/-- Modelled from the spec: the orphan-handling policy knob. -/
inductive OrphanMode where
  | strict
  | lenient
  deriving DecidableEq, Repr

/-- Aggregated import response counters and diagnostics. -/
structure ImportCounts where
  created : Nat
  skipped : Nat
  errors : Nat
  messages : List String
  deriving DecidableEq, Repr

/-- A dep edge is kept when its parent is resolvable in the store or in the
current import batch. -/
def depKeep (storeIds batchIds : List String) (d : String) : Bool :=
  storeIds.contains d || batchIds.contains d

/-- Modelled from the spec: in strict mode every unresolvable dep parent
produces a structured error entry; lenient mode drops orphans silently. -/
def orphanMsgs (orph : OrphanMode) (storeIds batchIds : List String)
    (ds : List String) : List String :=
  match orph with
  | .lenient => []
  | .strict =>
    (ds.filter (fun d => !depKeep storeIds batchIds d)).map
      (fun d => "strict orphan dep: " ++ d)

/-- Modelled from the spec: materialize a new task from an import record;
orphan dep edges are dropped, `closed_at` follows the record status using
the record's `updated_at` when present. -/
def taskFromRecord (rec : ImportRecord) (stat : Status)
    (storeIds batchIds : List String) (now : Nat) : Task :=
  { id := rec.id, title := pyStripStr rec.title, ttype := normToken rec.rtype,
    priority := rec.priority, status := stat,
    description := rec.description.getD "",
    labels := normalizeLabels (rec.labels.getD []),
    custom := rec.custom.getD [],
    deps := (rec.deps.getD []).filter (depKeep storeIds batchIds),
    source_repo := none,
    created_at := rec.created_at.getD now,
    updated_at := rec.updated_at.getD now,
    closed_at := if stat = Status.closed then some (rec.updated_at.getD now) else none,
    refs := [] }

/-- Modelled from the spec: overwrite-merge an import record into an
existing task — fields present in the record replace stored values, absent
fields are preserved; `deps` absent preserves the edges, an empty array
clears them, entries replace them (after orphan handling); `closed_at`
follows the record status. -/
def overwriteTask (t : Task) (rec : ImportRecord) (stat : Status)
    (storeIds batchIds : List String) (now : Nat) : Task :=
  { t with
    title := pyStripStr rec.title, ttype := normToken rec.rtype,
    priority := rec.priority, status := stat,
    description := rec.description.getD t.description,
    labels := match rec.labels with
              | none => t.labels
              | some ls => normalizeLabels ls,
    custom := rec.custom.getD t.custom,
    deps := match rec.deps with
            | none => t.deps
            | some ds => ds.filter (depKeep storeIds batchIds),
    updated_at := rec.updated_at.getD now,
    closed_at := if stat = Status.closed then some (rec.updated_at.getD now) else none }

/-- The structured orphan-dep messages contributed by one record. -/
def recMsgs (orph : OrphanMode) (batchIds : List String) (st : List Task)
    (rec : ImportRecord) : List String :=
  match rec.deps with
  | none => []
  | some ds => orphanMsgs orph (st.map Task.id) batchIds ds

/-- Modelled from the spec: process one import record against the store —
validation failures short-circuit the record with a structured error; a new
id is created; an existing id follows the dedupe policy (`skip` counts it
as skipped, `error` as a structured error, `overwrite` merges); strict
orphan deps add error entries without blocking the scalar upsert. -/
def processRecord (ded : DedupeMode) (orph : OrphanMode) (batchIds : List String)
    (now : Nat) (acc : List Task × ImportCounts) (rec : ImportRecord) :
    List Task × ImportCounts :=
  match parseStatus rec.rstatus with
  | none => (acc.1, { acc.2 with errors := acc.2.errors + 1,
                                 messages := acc.2.messages ++ ["invalid status"] })
  | some stat =>
    if 4 < rec.priority then
      (acc.1, { acc.2 with errors := acc.2.errors + 1,
                           messages := acc.2.messages ++ ["invalid priority"] })
    else
      match findTask acc.1 rec.id with
      | none =>
        (acc.1 ++ [taskFromRecord rec stat (acc.1.map Task.id) batchIds now],
         { acc.2 with created := acc.2.created + 1,
                      errors := acc.2.errors + (recMsgs orph batchIds acc.1 rec).length,
                      messages := acc.2.messages ++ recMsgs orph batchIds acc.1 rec })
      | some t =>
        match ded with
        | .skip => (acc.1, { acc.2 with skipped := acc.2.skipped + 1 })
        | .error =>
          (acc.1, { acc.2 with errors := acc.2.errors + 1,
                               messages := acc.2.messages ++ ["duplicate id: " ++ rec.id] })
        | .overwrite =>
          (mapTask acc.1 rec.id
             (fun _ => overwriteTask t rec stat (acc.1.map Task.id) batchIds now),
           { acc.2 with created := acc.2.created + 1,
                        errors := acc.2.errors + (recMsgs orph batchIds acc.1 rec).length,
                        messages := acc.2.messages ++ recMsgs orph batchIds acc.1 rec })

/-- Modelled from the spec: run an import batch record by record; the batch
ids (for orphan resolution against the current batch) are the ids of all
records. -/
def importBatch (ded : DedupeMode) (orph : OrphanMode) (recs : List ImportRecord)
    (now : Nat) (st : List Task) : List Task × ImportCounts :=
  recs.foldl (processRecord ded orph (recs.map ImportRecord.id) now)
    (st, { created := 0, skipped := 0, errors := 0, messages := [] })

/-! ### Serialized concurrent creates -/

/-- Modelled from the spec (§5): writes are serialized through a single
writer lane, so any N concurrent Create calls are observed as some
sequential order of the N calls; `runCreates` executes one such
serialization, with each call's generated id supplied as an oracle, and
fails if any call fails. -/
def runCreates : List (CreateReq × String) → Nat → List Task →
    Option (List Task × List String)
  | [], _, st => some (st, [])
  | ri :: rest, now, st =>
    match createTask ri.1 ri.2 now st with
    | (_, .error _) => none
    | (st2, .ok t) =>
      match runCreates rest (now + 1) st2 with
      | none => none
      | some (stF, ids) => some (stF, t.id :: ids)

/-- The ids returned by a subsequent list of the whole store. -/
def listIds (st : List Task) : List String := st.map Task.id

/-! ### Reachable states -/

/-- Modelled from the spec: the states reachable from the empty store
through the engine operations (every mutating operation in the model). -/
inductive Reachable : List Task → Prop where
  | init : Reachable []
  | create (st : List Task) (req : CreateReq) (id : String) (now : Nat) :
      Reachable st → Reachable (createTask req id now st).1
  | update (st : List Task) (id : String) (p : Patch) (now : Nat) :
      Reachable st → Reachable (updateTask id p now st).1
  | close (st : List Task) (ids : List String) (now : Nat) :
      Reachable st → Reachable (closeBatch ids now st).1
  | reopen (st : List Task) (ids : List String) (now : Nat) :
      Reachable st → Reachable (reopenBatch ids now st).1
  | closeCommit (st : List Task) (ids : List String) (c : String)
      (r : Option String) (now : Nat) :
      Reachable st → Reachable (closeWithCommit ids c r now st).1
  | insertRef (st : List Task) (tid : String) (req : GitRefReq) :
      Reachable st → Reachable (insertGitRef tid req st).1
  | addLab (st : List Task) (id : String) (ls : List String) (now : Nat) :
      Reachable st → Reachable (addLabels id ls now st).1
  | removeLab (st : List Task) (id : String) (ls : List String) (now : Nat) :
      Reachable st → Reachable (removeLabels id ls now st).1
  | imp (st : List Task) (ded : DedupeMode) (orph : OrphanMode)
      (recs : List ImportRecord) (now : Nat) :
      Reachable st → Reachable (importBatch ded orph recs now st).1

/-- Lowercase character lists: unchanged by the `lower` case mapping. -/
def LowerFixed (s : String) : Prop := ∀ c ∈ s.data, lowerChar c = c

/-- The per-task invariant of claim C2: labels strictly sorted (hence
duplicate-free) and entirely lowercase, and `closed_at` non-null exactly
when the status is `closed`. -/
def TaskInv (t : Task) : Prop :=
  t.labels.Pairwise (fun a b => labelLt a b = true) ∧
  (∀ l ∈ t.labels, LowerFixed l) ∧
  (t.closed_at ≠ none ↔ t.status = Status.closed)

/-! ### Concrete fixtures used by the witnesses -/

/-- A 40-character lowercase hash used in witnesses. -/
def wHash : String := String.mk (List.replicate 40 'a')

/-- A concrete create request used in witnesses. -/
def wReq : CreateReq :=
  { title := "Auth", rtype := some "bug", priority := some 3, rstatus := none,
    description := some "d", labels := ["Bug", "auth"], custom := [("k", "v")],
    deps := [], source_repo := some "github.com/acme/repo" }

/-- A second distinct create request used in witnesses. -/
def wReq2 : CreateReq :=
  { title := "Billing", rtype := none, priority := none, rstatus := none,
    description := none, labels := [], custom := [], deps := [], source_repo := none }

/-- A concrete one-task store used in witnesses. -/
def wSt : List Task := (createTask wReq "gr-aa11" 0 []).1

/-- A single-field patch used in witnesses. -/
def wPatch : Patch :=
  { title := none, rtype := none, priority := some 1, rstatus := none,
    description := none, labels := none, custom := none }

/-- The empty patch used in witnesses. -/
def wPatchNone : Patch :=
  { title := none, rtype := none, priority := none, rstatus := none,
    description := none, labels := none, custom := none }

/-- A concrete git-ref request used in witnesses. -/
def wRefReq : GitRefReq :=
  { repo := some "github.com/acme/repo", relation := "related",
    object_type := "commit", object_value := wHash, resolved_commit := none }

/-- The task stored by creating `wReq` under id `gr-aa11`. -/
def wTask : Task :=
  { id := "gr-aa11", title := "Auth", ttype := "bug", priority := 3, status := .open_,
    description := "d", labels := ["auth", "bug"], custom := [("k", "v")], deps := [],
    source_repo := some "github.com/acme/repo", created_at := 0, updated_at := 0,
    closed_at := none, refs := [] }

/-- The canonical ref produced by `wRefReq` against `wTask`. -/
def wRef : GitRef :=
  { repo := "github.com/acme/repo", relation := "related", object_type := "commit",
    object_value := wHash, resolved_commit := "" }

/-- A concrete import record with an orphan dep used in witnesses. -/
def wRecOrphan : ImportRecord :=
  { id := "gr-or11", title := "Orphan", rstatus := "open", rtype := "task",
    priority := 2, description := none, labels := none, custom := none,
    deps := some ["gr-zz99"], updated_at := some 3, created_at := some 1 }

/-- A concrete overwrite import record used in witnesses. -/
def wRecOver : ImportRecord :=
  { id := "gr-aa11", title := "Auth2", rstatus := "closed", rtype := "task",
    priority := 2, description := none, labels := none, custom := none,
    deps := none, updated_at := some 7, created_at := none }

/-! ## General lemmas about the character-level helpers -/

theorem lowerChar_of_not_upper (c : Char) (h : c ∉ upperAscii) : lowerChar c = c := by
  unfold lowerChar
  split <;> simp_all [upperAscii]

theorem lowerChar_idem (c : Char) : lowerChar (lowerChar c) = lowerChar c := by
  by_cases h : c ∈ upperAscii
  · fin_cases h <;> rfl
  · rw [lowerChar_of_not_upper c h]
    exact lowerChar_of_not_upper c h

theorem map_fix_eq_self {α : Type} (f : α → α) :
    ∀ (l : List α), (∀ c ∈ l, f c = c) → l.map f = l := by
  intro l h
  induction l with
  | nil => rfl
  | cons a t ih =>
    simp only [List.map_cons, h a (by simp)]
    rw [ih (fun c hc => h c (by simp [hc]))]

theorem memIntersperse {α : Type} (s : α) : ∀ (xss : List α) (l : α),
    l ∈ List.intersperse s xss → l = s ∨ l ∈ xss := by
  intro xss
  induction xss with
  | nil => intro l h; simp [List.intersperse] at h
  | cons a t ih =>
    intro l h
    cases t with
    | nil => simp [List.intersperse] at h; simp [h]
    | cons b t2 =>
      rw [List.intersperse_cons_cons] at h
      rcases List.mem_cons.mp h with h | h
      · right; simp [h]
      · rcases List.mem_cons.mp h with h | h
        · left; exact h
        · rcases ih l h with h2 | h2
          · left; exact h2
          · right; simp [h2]

theorem takeWhileAppend {α : Type} (p : α → Bool) :
    ∀ (xs l : List α), (∀ x ∈ xs, p x) → (xs ++ l).takeWhile p = xs ++ l.takeWhile p := by
  intro xs
  induction xs with
  | nil => simp
  | cons a t ih =>
    intro l h
    rw [List.cons_append, List.takeWhile_cons, h a (List.mem_cons_self a t)]
    simp only [if_true]
    rw [ih l (fun x hx => h x (List.mem_cons_of_mem a hx)), List.cons_append]

theorem splitOnP_no_sat {α : Type} [DecidableEq α] (p : α → Bool) :
    ∀ (xs l : List α), l ∈ xs.splitOnP p → ∀ c ∈ l, p c = false := by
  intro xs
  induction xs with
  | nil =>
    intro l hl c hc
    rw [List.splitOnP_nil] at hl
    simp at hl
    subst hl
    simp at hc
  | cons x t ih =>
    intro l hl c hc
    rw [List.splitOnP_cons] at hl
    by_cases hx : p x
    · rw [if_pos hx] at hl
      rcases List.mem_cons.mp hl with h | h
      · subst h; simp at hc
      · exact ih l h c hc
    · rw [if_neg hx] at hl
      rcases hsp : t.splitOnP p with _ | ⟨hd, tl⟩
      · exact absurd hsp (List.splitOnP_ne_nil p t)
      · rw [hsp] at hl
        simp only [List.modifyHead] at hl
        rcases List.mem_cons.mp hl with h | h
        · subst h
          rcases List.mem_cons.mp hc with h2 | h2
          · subst h2; simpa using hx
          · exact ih hd (by rw [hsp]; simp) c h2
        · exact ih l (by rw [hsp]; simp [h]) c hc

theorem splitOn_no_sep (xs l : List Char) (h : l ∈ xs.splitOn '/') : '/' ∉ l := by
  intro hmem
  have := splitOnP_no_sat (fun c => c == '/') xs l h '/' hmem
  simp at this

theorem dropWhile_eq_self_of_all {p : Char → Bool} (l : List Char)
    (h : ∀ c ∈ l, p c = false) : l.dropWhile p = l := by
  cases l with
  | nil => rfl
  | cons a t => rw [List.dropWhile_cons, h a (List.mem_cons_self a t)]; simp

theorem pyStrip_eq_self (l : List Char) (h : ∀ c ∈ l, isSpacePy c = false) :
    pyStrip l = l := by
  unfold pyStrip
  rw [dropWhile_eq_self_of_all l h,
      dropWhile_eq_self_of_all l.reverse (fun c hc => h c (List.mem_reverse.mp hc)),
      List.reverse_reverse]

theorem rstripSlash_eq_self (l : List Char)
    (h : ∀ c, l.getLast? = some c → (c == '/') = false) : rstripSlash l = l := by
  unfold rstripSlash
  cases hr : l.reverse with
  | nil =>
    have : l = [] := by simpa using congrArg List.reverse hr
    subst this
    simp
  | cons a t =>
    have ha : l.getLast? = some a := by
      rw [← List.head?_reverse, hr]; rfl
    have hd : List.dropWhile (fun x => x == '/') (a :: t) = a :: t := by
      rw [List.dropWhile_cons, h a ha]
      simp
    rw [hd, ← hr, List.reverse_reverse]

theorem mem_of_mem_pyStrip {c : Char} {l : List Char} (h : c ∈ pyStrip l) : c ∈ l := by
  unfold pyStrip at h
  rw [List.mem_reverse] at h
  have h2 := (List.dropWhile_sublist _).subset h
  rw [List.mem_reverse] at h2
  exact (List.dropWhile_sublist _).subset h2

theorem mem_of_mem_rstripSlash {c : Char} {l : List Char} (h : c ∈ rstripSlash l) : c ∈ l := by
  unfold rstripSlash at h
  rw [List.mem_reverse] at h
  have h2 := (List.dropWhile_sublist _).subset h
  rw [List.mem_reverse] at h2
  exact h2

/-! ## Structure of canonical repo slugs -/

theorem slugCheck_spec {ps : List (List Char)} (h : slugCheck ps = true) :
    ps.length = 3 ∧ ∀ p ∈ ps, p ≠ [] ∧ ∀ c ∈ p, isSpacePy c = false := by
  unfold slugCheck at h
  rw [Bool.and_eq_true] at h
  refine ⟨by simpa using h.1, ?_⟩
  intro p hp
  have h2 := List.all_eq_true.mp h.2 p hp
  rw [Bool.and_eq_true] at h2
  refine ⟨?_, ?_⟩
  · have := h2.1
    simp only [Bool.not_eq_true'] at this
    simpa [List.isEmpty_iff] using this
  · intro c hc
    have := List.all_eq_true.mp h2.2 c hc
    simpa using this

theorem slugFinalize_some {v o : List Char} (h : slugFinalize v = some o) :
    o = slugV2 v ∧ slugCheck (o.splitOn '/') = true := by
  unfold slugFinalize at h
  by_cases hc : slugCheck ((slugV2 v).splitOn '/') = true
  · rw [if_pos hc, List.intercalate_splitOn (slugV2 v) '/'] at h
    obtain rfl : slugV2 v = o := Option.some.inj h
    exact ⟨rfl, hc⟩
  · rw [if_neg hc] at h
    cases h

theorem lower_of_mem_slugV2 {c : Char} {v : List Char} (h : c ∈ slugV2 v) :
    lowerChar c = c := by
  have h1 : c ∈ slugV1 v := by
    unfold slugV2 at h
    split at h
    · exact List.mem_of_mem_take h
    · exact h
  unfold slugV1 at h1
  have h2 : c ∈ (pyStrip v).map lowerChar := mem_of_mem_rstripSlash h1
  obtain ⟨d, _, rfl⟩ := List.mem_map.mp h2
  exact lowerChar_idem d

theorem canonSlug_chars_some {raw o : List Char}
    (h : canonical_repo_slug_chars raw = some o) :
    slugCheck (o.splitOn '/') = true ∧ ∀ c ∈ o, lowerChar c = c := by
  have hex : ∃ v, slugFinalize v = some o := by
    unfold canonical_repo_slug_chars at h
    split at h
    · cases h
    · split at h
      · unfold slugFromUrl at h
        split at h
        · cases h
        · exact ⟨_, h⟩
      · split at h
        · unfold slugFromScp at h
          exact ⟨_, h⟩
        · exact ⟨_, h⟩
  obtain ⟨v, hv⟩ := hex
  obtain ⟨ho, hchk⟩ := slugFinalize_some hv
  exact ⟨hchk, fun c hc => lower_of_mem_slugV2 (ho ▸ hc)⟩

theorem intercalate_three (p1 p2 p3 : List Char) :
    ['/'].intercalate [p1, p2, p3] = p1 ++ '/' :: (p2 ++ '/' :: p3) := by
  simp [List.intercalate, List.intersperse]

theorem slugFinalize_fixed {o : List Char}
    (hsp : ∀ c ∈ o, isSpacePy c = false)
    (hlow : ∀ c ∈ o, lowerChar c = c)
    (hlast : ∀ c, o.getLast? = some c → (c == '/') = false)
    (hg : ¬ gitSuffix <:+ o)
    (hchk : slugCheck (o.splitOn '/') = true) :
    slugFinalize o = some o := by
  have hv1 : slugV1 o = o := by
    unfold slugV1
    rw [pyStrip_eq_self o hsp, map_fix_eq_self lowerChar o hlow, rstripSlash_eq_self o hlast]
  have hv2 : slugV2 o = o := by
    unfold slugV2
    rw [hv1, if_neg hg]
  unfold slugFinalize
  rw [hv2, if_pos hchk, List.intercalate_splitOn o '/']

theorem canonSlug_chars_again {raw o : List Char}
    (h : canonical_repo_slug_chars raw = some o)
    (hg : ¬ gitSuffix <:+ o)
    (hat : ¬ ('@' ∈ o ∧ ':' ∈ o)) :
    canonical_repo_slug_chars o = some o := by
  obtain ⟨hchk, hlow⟩ := canonSlug_chars_some h
  obtain ⟨hlen, hparts⟩ := slugCheck_spec hchk
  obtain ⟨p1, p2, p3, hps⟩ : ∃ a b c, o.splitOn '/' = [a, b, c] := by
    rcases hq : o.splitOn '/' with _ | ⟨a, _ | ⟨b, _ | ⟨c, _ | ⟨d, tl⟩⟩⟩⟩ <;>
      rw [hq] at hlen
    · simp at hlen
    · simp at hlen
    · simp at hlen
    · exact ⟨a, b, c, rfl⟩
    · simp at hlen
  have hm1 : p1 ∈ o.splitOn '/' := by rw [hps]; simp
  have hm2 : p2 ∈ o.splitOn '/' := by rw [hps]; simp
  have hm3 : p3 ∈ o.splitOn '/' := by rw [hps]; simp
  obtain ⟨hne1, hsp1⟩ := hparts p1 hm1
  obtain ⟨hne2, hsp2⟩ := hparts p2 hm2
  obtain ⟨hne3, hsp3⟩ := hparts p3 hm3
  have hsl1 : '/' ∉ p1 := splitOn_no_sep o p1 hm1
  have hsl2 : '/' ∉ p2 := splitOn_no_sep o p2 hm2
  have hsl3 : '/' ∉ p3 := splitOn_no_sep o p3 hm3
  have hoE : o = p1 ++ '/' :: (p2 ++ '/' :: p3) := by
    conv_lhs => rw [← List.intercalate_splitOn o '/', hps]
    exact intercalate_three p1 p2 p3
  have hspO : ∀ c ∈ o, isSpacePy c = false := by
    intro c hc
    rw [hoE] at hc
    simp only [List.mem_append, List.mem_cons] at hc
    rcases hc with h1 | h1 | h1 | h1 | h1
    · exact hsp1 c h1
    · subst h1; rfl
    · exact hsp2 c h1
    · subst h1; rfl
    · exact hsp3 c h1
  have hne : o ≠ [] := by
    rw [hoE]
    rcases p1 with _ | ⟨a, t⟩
    · exact absurd rfl hne1
    · simp
  have hlast : ∀ c, o.getLast? = some c → (c == '/') = false := by
    intro c hcl
    have hoE2 : o = (p1 ++ '/' :: p2 ++ ['/']) ++ p3 := by
      rw [hoE]; simp
    rw [hoE2, List.getLast?_append_of_ne_nil _ hne3] at hcl
    have hcm : c ∈ p3 := by
      obtain ⟨hh, heq⟩ := List.mem_getLast?_eq_getLast (x := c) hcl
      exact heq ▸ List.getLast_mem hh
    simp only [beq_eq_false_iff_ne, ne_eq]
    intro hcc
    exact hsl3 (hcc ▸ hcm)
  have hcnt : o.count '/' = 2 := by
    have c1 : p1.count '/' = 0 := List.count_eq_zero.mpr hsl1
    have c2 : p2.count '/' = 0 := List.count_eq_zero.mpr hsl2
    have c3 : p3.count '/' = 0 := List.count_eq_zero.mpr hsl3
    rw [hoE]
    simp [List.count_append, List.count_cons, c1, c2, c3]
  have hall1 : ∀ x ∈ p1, (x != '/') = true := by
    intro x hx
    simp only [bne_iff_ne, ne_eq]
    intro hxx
    exact hsl1 (hxx ▸ hx)
  have htw1 : o.takeWhile (fun c => c != '/') = p1 := by
    rw [hoE, takeWhileAppend _ p1 _ hall1]
    simp [List.takeWhile_cons]
  have hnoUrl : ¬ urlMarker <:+: o := by
    rintro ⟨u, w, huw⟩
    have hcu : u.count '/' + ((urlMarker ++ w).count '/') = 2 := by
      rw [← hcnt, ← huw]
      simp [List.count_append]
    have hum : (urlMarker ++ w).count '/' = 2 + w.count '/' := by
      rw [List.count_append]
      have h2 : urlMarker.count '/' = 2 := rfl
      omega
    have hu0 : u.count '/' = 0 := by omega
    have huf : '/' ∉ u := List.count_eq_zero.mp hu0
    have hallu : ∀ x ∈ u, (x != '/') = true := by
      intro x hx
      simp only [bne_iff_ne, ne_eq]
      intro hxx
      exact huf (hxx ▸ hx)
    have hassoc : o = u ++ (urlMarker ++ w) := by
      rw [← huw, List.append_assoc]
    have htw2 : o.takeWhile (fun c => c != '/') = u ++ [':'] := by
      rw [hassoc, takeWhileAppend _ u _ hallu]
      have hshape : urlMarker ++ w = ':' :: ('/' :: ('/' :: w)) := rfl
      rw [hshape]
      simp [List.takeWhile_cons]
    have hp1u : p1 = u ++ [':'] := by rw [← htw1, htw2]
    have heq : u ++ (':' :: ('/' :: ('/' :: w))) =
        u ++ (':' :: ('/' :: (p2 ++ '/' :: p3))) := by
      have hL : u ++ (':' :: ('/' :: ('/' :: w))) = o := by
        rw [hassoc]; rfl
      have hR : u ++ (':' :: ('/' :: (p2 ++ '/' :: p3))) = o := by
        rw [hoE, hp1u]; simp
      rw [hL, hR]
    have hcanc := List.append_cancel_left heq
    injection hcanc with _ hcanc
    injection hcanc with _ hcanc
    rcases p2 with _ | ⟨a, t2⟩
    · exact hne2 rfl
    · rw [List.cons_append] at hcanc
      injection hcanc with h1 _
      exact hsl2 (h1 ▸ List.mem_cons_self a t2)
  unfold canonical_repo_slug_chars
  rw [pyStrip_eq_self o hspO]
  rw [if_neg (by simp [List.isEmpty_iff, hne]), if_neg hnoUrl, if_neg hat]
  exact slugFinalize_fixed hspO hlow hlast hg hchk

/-! ## Claim C1: repo-slug canonicalization idempotence -/

/-- C1, counterexample: canonicalization strips only one trailing `.git`,
so it succeeds on `"h/o/n.git.git"` with output `"h/o/n.git"`, yet
re-canonicalizing that output yields the different string `"h/o/n"` — the
claimed idempotence fails. -/
theorem C1_counterexample :
    canonical_repo_slug "h/o/n.git.git" = some "h/o/n.git" ∧
    canonical_repo_slug "h/o/n.git" = some "h/o/n" ∧
    canonical_repo_slug "h/o/n.git" ≠ some "h/o/n.git" := by
  refine ⟨by decide, by decide, by decide⟩

/-- C1 (amended): for every input on which `canonical_repo_slug` succeeds,
re-canonicalizing the output succeeds and returns the same string, provided
the output does not itself end in `.git` (a second strip would remove it)
and does not contain both `@` and `:` (the SCP branch would reinterpret
it). -/
theorem C1_canonical_repo_slug_idem_amended (raw o : String)
    (h : canonical_repo_slug raw = some o)
    (hg : ¬ gitSuffix <:+ o.data)
    (hat : ¬ ('@' ∈ o.data ∧ ':' ∈ o.data)) :
    canonical_repo_slug o = some o := by
  unfold canonical_repo_slug at h ⊢
  cases hcc : canonical_repo_slug_chars raw.data with
  | none => rw [hcc] at h; cases h
  | some lo =>
    rw [hcc] at h
    have hlo : String.mk lo = o := Option.some.inj h
    have hdata : canonical_repo_slug_chars raw.data = some o.data := by
      rw [hcc, ← hlo]
    have hres := canonSlug_chars_again hdata hg hat
    rw [hres]
    cases o
    rfl

/-- C1 witness: the amended idempotence theorem applied at the concrete
input `"GitHub.com/Acme/Repo"`, whose canonical output is
`"github.com/acme/repo"`. -/
theorem C1_witness :
    (canonical_repo_slug "GitHub.com/Acme/Repo" = some "github.com/acme/repo" ∧
     ¬ gitSuffix <:+ ("github.com/acme/repo" : String).data ∧
     ¬ ('@' ∈ ("github.com/acme/repo" : String).data ∧
        ':' ∈ ("github.com/acme/repo" : String).data)) ∧
    canonical_repo_slug "github.com/acme/repo" = some "github.com/acme/repo" :=
  ⟨⟨by decide, by decide, by decide⟩,
   C1_canonical_repo_slug_idem_amended "GitHub.com/Acme/Repo" "github.com/acme/repo"
     (by decide) (by decide) (by decide)⟩

/-! ## Claim C10: `merge_labels` semantics -/

/-- C10 helper: the fold of `mergeStep` over labels extends the output with
the first-occurrence deduplication of the normalized non-empty labels. -/
theorem mergeStep_go (ls : List String) : ∀ (seen out : List String),
    (ls.foldl mergeStep (seen, out)).2 =
      out ++ dedupFirst seen ((ls.map normToken).filter (fun l => l ≠ "")) := by
  induction ls with
  | nil => intro seen out; simp [dedupFirst]
  | cons x t ih =>
    intro seen out
    simp only [List.foldl_cons, List.map_cons, List.filter_cons]
    by_cases h0 : normToken x = ""
    · have hstep : mergeStep (seen, out) x = (seen, out) := by
        unfold mergeStep
        rw [if_pos h0]
      rw [hstep, ih seen out]
      simp [h0, dedupFirst]
    · by_cases h1 : normToken x ∈ seen
      · have hstep : mergeStep (seen, out) x = (seen, out) := by
          unfold mergeStep
          rw [if_neg h0, if_pos h1]
        rw [hstep, ih seen out]
        simp [h0, dedupFirst, h1]
      · have hstep : mergeStep (seen, out) x =
            (normToken x :: seen, out ++ [normToken x]) := by
          unfold mergeStep
          rw [if_neg h0, if_neg h1]
        rw [hstep, ih (normToken x :: seen) (out ++ [normToken x])]
        simp [h0, dedupFirst, h1]

/-- C10 helper: folding group by group equals folding the flattened label
sequence. -/
theorem merge_fold_flatten (gs : List (List String)) :
    ∀ acc, gs.foldl (fun acc group => group.foldl mergeStep acc) acc =
      gs.flatten.foldl mergeStep acc := by
  induction gs with
  | nil => intro acc; rfl
  | cons g t ih => intro acc; simp [List.flatten_cons, List.foldl_append, ih]

/-- C10 helper: first-occurrence deduplication yields no duplicates and no
element of the ambient seen set. -/
theorem dedupFirst_nodup (ls : List String) : ∀ (seen : List String),
    (dedupFirst seen ls).Nodup ∧ ∀ x ∈ dedupFirst seen ls, x ∉ seen := by
  induction ls with
  | nil => intro seen; exact ⟨List.nodup_nil, by simp [dedupFirst]⟩
  | cons x t ih =>
    intro seen
    unfold dedupFirst
    by_cases hx : x ∈ seen
    · rw [if_pos hx]; exact ih seen
    · rw [if_neg hx]
      obtain ⟨hnd, hns⟩ := ih (x :: seen)
      refine ⟨List.nodup_cons.mpr ⟨fun hmem => hns x hmem (List.mem_cons_self x seen), hnd⟩, ?_⟩
      intro y hy
      rcases List.mem_cons.mp hy with h | h
      · exact h ▸ hx
      · exact fun hys => hns y h (List.mem_cons_of_mem x hys)

/-- C10: `merge_labels` returns each distinct trimmed-and-lowercased
non-empty label exactly once, ordered by first occurrence across the
concatenated groups (first-occurrence deduplication of the normalized
flattened sequence), produces no duplicates, and does not sort: on
`[["B", "a"]]` it returns `["b", "a"]`, unlike the sorted server-side
label normalization. -/
theorem C10_merge_labels_first_occurrence (groups : List (List String)) :
    merge_labels groups =
      dedupFirst [] ((groups.flatten.map normToken).filter (fun l => l ≠ "")) ∧
    (merge_labels groups).Nodup ∧
    merge_labels [["B", "a"]] = ["b", "a"] ∧
    merge_labels [["B", "a"]] ≠ normalizeLabels ["B", "a"] := by
  have hmain : merge_labels groups =
      dedupFirst [] ((groups.flatten.map normToken).filter (fun l => l ≠ "")) := by
    unfold merge_labels
    rw [merge_fold_flatten, mergeStep_go]
    simp
  refine ⟨hmain, ?_, by decide, by decide⟩
  rw [hmain]
  exact (dedupFirst_nodup _ []).1

/-! ## Store lemmas -/

theorem exceptBind_ok {α β : Type} {x : Except ErrCode α} {f : α → Except ErrCode β} {b : β} :
    (x >>= f) = .ok b ↔ ∃ a, x = .ok a ∧ f a = .ok b := by
  cases x <;> simp [Bind.bind, Except.bind]

theorem findTask_cons (a : Task) (st : List Task) (id : String) :
    findTask (a :: st) id = if a.id = id then some a else findTask st id := by
  unfold findTask
  by_cases h : a.id = id
  · rw [if_pos h, List.find?_cons_of_pos _ (by simp [h])]
  · rw [if_neg h, List.find?_cons_of_neg _ (by simp [h])]

theorem findTask_some {st : List Task} {id : String} {t : Task}
    (h : findTask st id = some t) : t.id = id ∧ t ∈ st := by
  unfold findTask at h
  refine ⟨?_, List.mem_of_find?_eq_some h⟩
  have := List.find?_some h
  simpa using this

theorem findTask_mapTask_self (st : List Task) (id : String) (f : Task → Task)
    (hf : ∀ t : Task, t.id = id → (f t).id = id) :
    findTask (mapTask st id f) id = (findTask st id).map f := by
  induction st with
  | nil => rfl
  | cons a t ih =>
    have hmc : mapTask (a :: t) id f = (if a.id = id then f a else a) :: mapTask t id f := rfl
    rw [hmc]
    by_cases ha : a.id = id
    · rw [if_pos ha, findTask_cons, findTask_cons, if_pos ha, if_pos (hf a ha)]
      rfl
    · rw [if_neg ha, findTask_cons, findTask_cons, if_neg ha, if_neg ha]
      exact ih

theorem findTask_mapTask_ne (st : List Task) (id id2 : String) (f : Task → Task)
    (hf : ∀ t : Task, t.id = id → (f t).id = id) (hne : id2 ≠ id) :
    findTask (mapTask st id f) id2 = findTask st id2 := by
  induction st with
  | nil => rfl
  | cons a t ih =>
    have hmc : mapTask (a :: t) id f = (if a.id = id then f a else a) :: mapTask t id f := rfl
    rw [hmc]
    by_cases ha : a.id = id
    · rw [if_pos ha, findTask_cons, findTask_cons,
          if_neg (by rw [hf a ha]; exact fun he => hne he.symm),
          if_neg (by rw [ha]; exact fun he => hne he.symm)]
      exact ih
    · rw [if_neg ha, findTask_cons, findTask_cons]
      by_cases ha2 : a.id = id2
      · rw [if_pos ha2, if_pos ha2]
      · rw [if_neg ha2, if_neg ha2]
        exact ih

theorem closeTask_id (now : Nat) (t : Task) : (closeTask now t).id = t.id := by
  unfold closeTask
  split <;> rfl

theorem reopenTask_id (now : Nat) (t : Task) : (reopenTask now t).id = t.id := rfl

theorem batchGo_not_found (f : Task → Task) (hf : ∀ t : Task, (f t).id = t.id) :
    ∀ (ids : List String) (st : List Task), (∃ id ∈ ids, findTask st id = none) →
    batchGo f ids st = .error .not_found := by
  intro ids
  induction ids with
  | nil =>
    intro st h
    obtain ⟨id, hm, _⟩ := h
    simp at hm
  | cons i rest ih =>
    intro st h
    obtain ⟨id0, hm, hnone⟩ := h
    unfold batchGo
    cases hfi : findTask st i with
    | none => rfl
    | some tsk =>
      rcases List.mem_cons.mp hm with he | hr
      · subst he
        rw [hfi] at hnone
        cases hnone
      · have hne : id0 ≠ i := by
          intro he
          subst he
          rw [hfi] at hnone
          cases hnone
        apply ih
        refine ⟨id0, hr, ?_⟩
        rw [findTask_mapTask_ne st i id0 f (fun t ht => (hf t).trans ht) hne]
        exact hnone

/-! ## Claim C3: batch close/reopen is all-or-nothing on existence -/

/-- C3: when any requested id has no existing task, batch close and batch
reopen fail with `not_found` and return the store unchanged, so every task
named by the existing ids keeps its prior status. -/
theorem C3_close_reopen_all_or_nothing (ids : List String) (now : Nat)
    (st : List Task) (h : ∃ id ∈ ids, findTask st id = none) :
    closeBatch ids now st = (st, .error .not_found) ∧
    reopenBatch ids now st = (st, .error .not_found) := by
  constructor
  · unfold closeBatch
    rw [batchGo_not_found (closeTask now) (closeTask_id now) ids st h]
  · unfold reopenBatch
    rw [batchGo_not_found (reopenTask now) (reopenTask_id now) ids st h]

/-- C3 witness: a store holding task `gr-aa11`, closed/reopened together
with the missing id `gr-zzzz`. -/
theorem C3_witness :
    (∃ id ∈ ["gr-aa11", "gr-zzzz"], findTask wSt id = none) ∧
    closeBatch ["gr-aa11", "gr-zzzz"] 5 wSt = (wSt, .error .not_found) ∧
    reopenBatch ["gr-aa11", "gr-zzzz"] 5 wSt = (wSt, .error .not_found) := by
  have h : ∃ id ∈ ["gr-aa11", "gr-zzzz"], findTask wSt id = none := by decide
  obtain ⟨h1, h2⟩ := C3_close_reopen_all_or_nothing ["gr-aa11", "gr-zzzz"] 5 wSt h
  exact ⟨h, h1, h2⟩

/-! ## Claim C6: PATCH touches only present fields -/

/-- Full characterization of a successful `applyPatch`: absent fields are
preserved exactly, present fields take their canonicalized values,
`closed_at` is touched only alongside a status field, and the untouchable
fields (`id`, `deps`, `source_repo`, `refs`, `created_at`) never change. -/
theorem applyPatch_ok {t : Task} {p : Patch} {now : Nat} {t2 : Task}
    (h : applyPatch t p now = .ok t2) :
    (p.title = none → t2.title = t.title) ∧
    (∀ s, p.title = some s → t2.title = pyStripStr s) ∧
    (p.rtype = none → t2.ttype = t.ttype) ∧
    (∀ s, p.rtype = some s → t2.ttype = normToken s) ∧
    (p.priority = none → t2.priority = t.priority) ∧
    (∀ n, p.priority = some n → t2.priority = n) ∧
    (p.rstatus = none → t2.status = t.status ∧ t2.closed_at = t.closed_at) ∧
    (∀ s, p.rstatus = some s → parseStatus s = some t2.status ∧
      t2.closed_at = (if t2.status = Status.closed then some now else none)) ∧
    (p.description = none → t2.description = t.description) ∧
    (∀ d, p.description = some d → t2.description = d) ∧
    (p.labels = none → t2.labels = t.labels) ∧
    (∀ ls, p.labels = some ls → t2.labels = normalizeLabels ls) ∧
    (p.custom = none → t2.custom = t.custom) ∧
    (∀ cs, p.custom = some cs → t2.custom = cs) ∧
    t2.id = t.id ∧ t2.deps = t.deps ∧ t2.source_repo = t.source_repo ∧
    t2.refs = t.refs ∧ t2.created_at = t.created_at ∧ t2.updated_at = now := by
  unfold applyPatch at h
  cases h1 : vTitle t p with
  | error e => rw [h1] at h; cases h
  | ok v1 =>
  rw [h1] at h
  cases h2 : vType t p with
  | error e => rw [h2] at h; cases h
  | ok v2 =>
  rw [h2] at h
  cases h3 : vPriority t p with
  | error e => rw [h3] at h; cases h
  | ok v3 =>
  rw [h3] at h
  cases h4 : vStatus t p with
  | error e => rw [h4] at h; cases h
  | ok v4 =>
  rw [h4] at h
  obtain rfl := Except.ok.inj h
  unfold vTitle at h1
  unfold vType at h2
  unfold vPriority at h3
  unfold vStatus at h4
  refine ⟨?_, ?_, ?_, ?_, ?_, ?_, ?_, ?_, ?_, ?_, ?_, ?_, ?_, ?_, rfl, rfl, rfl, rfl, rfl, rfl⟩
  · intro hn; rw [hn] at h1; exact (Except.ok.inj h1).symm
  · intro s hs
    rw [hs] at h1
    have hr : (if pyStripStr s = "" then
        (Except.error (ErrCode.invalid_argument "title must not be empty") :
          Except ErrCode String)
      else .ok (pyStripStr s)) = .ok v1 := h1
    by_cases hv : pyStripStr s = ""
    · rw [if_pos hv] at hr; cases hr
    · rw [if_neg hv] at hr; exact (Except.ok.inj hr).symm
  · intro hn; rw [hn] at h2; exact (Except.ok.inj h2).symm
  · intro s hs
    rw [hs] at h2
    have hr : (if normToken s ∈ validTypes then
        (Except.ok (normToken s) : Except ErrCode String)
      else .error (.invalid_argument "invalid type")) = .ok v2 := h2
    by_cases hv : normToken s ∈ validTypes
    · rw [if_pos hv] at hr; exact (Except.ok.inj hr).symm
    · rw [if_neg hv] at hr; cases hr
  · intro hn; rw [hn] at h3; exact (Except.ok.inj h3).symm
  · intro n hn
    rw [hn] at h3
    have hr : (if 4 < n then
        (Except.error (ErrCode.invalid_argument "priority must be between 0 and 4") :
          Except ErrCode Nat)
      else .ok n) = .ok v3 := h3
    by_cases hv : 4 < n
    · rw [if_pos hv] at hr; cases hr
    · rw [if_neg hv] at hr; exact (Except.ok.inj hr).symm
  · intro hn
    rw [hn] at h4
    exact ⟨(Except.ok.inj h4).symm, by simp [hn]⟩
  · intro s hs
    rw [hs] at h4
    have hr : (match parseStatus s with
      | some v => (Except.ok v : Except ErrCode Status)
      | none => .error (.invalid_argument "invalid status")) = .ok v4 := h4
    cases hp : parseStatus s with
    | none =>
      rw [hp] at hr
      have hr2 : (Except.error (ErrCode.invalid_argument "invalid status") :
          Except ErrCode Status) = .ok v4 := hr
      cases hr2
    | some v =>
      rw [hp] at hr
      have hr2 : (Except.ok v : Except ErrCode Status) = .ok v4 := hr
      have hv4 : v = v4 := Except.ok.inj hr2
      exact ⟨by rw [hv4], by simp [hs]⟩
  · intro hn; simp [hn]
  · intro d hd; simp [hd]
  · intro hn; simp [hn]
  · intro ls hls; simp [hls]
  · intro hn; simp [hn]
  · intro cs hcs; simp [hcs]

/-- C6: for an existing task, a successful PATCH changes only the fields
present in the patch — every absent field among title, type, priority,
status, description, labels and custom is preserved exactly, present
fields take the requested (canonicalized) values, and the merged task is
stored — while a PATCH with no recognized field fails with
`invalid_argument` "no fields to update" and leaves the store unchanged. -/
theorem C6_patch_frame (id : String) (p : Patch) (now : Nat) (st : List Task) :
    (∀ t t2 : Task, findTask st id = some t → (updateTask id p now st).2 = .ok t2 →
      (p.title = none → t2.title = t.title) ∧
      (∀ s, p.title = some s → t2.title = pyStripStr s) ∧
      (p.rtype = none → t2.ttype = t.ttype) ∧
      (p.priority = none → t2.priority = t.priority) ∧
      (∀ n, p.priority = some n → t2.priority = n) ∧
      (p.rstatus = none → t2.status = t.status ∧ t2.closed_at = t.closed_at) ∧
      (p.description = none → t2.description = t.description) ∧
      (p.labels = none → t2.labels = t.labels) ∧
      (p.custom = none → t2.custom = t.custom) ∧
      findTask (updateTask id p now st).1 id = some t2) ∧
    (∀ t : Task, findTask st id = some t → patchEmpty p = true →
      updateTask id p now st = (st, .error (.invalid_argument "no fields to update"))) := by
  constructor
  · intro t t2 hf hok
    have hupd : updateTask id p now st =
        (if patchEmpty p = true then (st, .error (.invalid_argument "no fields to update"))
         else match applyPatch t p now with
              | .error e => (st, .error e)
              | .ok t3 => (mapTask st id (fun _ => t3), .ok t3)) := by
      unfold updateTask
      rw [hf]
    rw [hupd] at hok ⊢
    by_cases he : patchEmpty p = true
    · rw [if_pos he] at hok
      cases hok
    · rw [if_neg he] at hok ⊢
      cases hap : applyPatch t p now with
      | error e =>
        rw [hap] at hok
        have hok2 : (Except.error e : Except ErrCode Task) = .ok t2 := hok
        cases hok2
      | ok t3 =>
        rw [hap] at hok
        have hok2 : (Except.ok t3 : Except ErrCode Task) = .ok t2 := hok
        obtain rfl := Except.ok.inj hok2
        obtain ⟨a1, a2, a3, a4, a5, a6, a7, a8, a9, a10, a11, a12, a13, a14,
          aid, _, _, _, _, _⟩ := applyPatch_ok hap
        refine ⟨a1, a2, a3, a5, a6, a7, a9, a11, a13, ?_⟩
        show findTask (mapTask st id (fun _ => t3)) id = some t3
        have hid : t.id = id := (findTask_some hf).1
        rw [findTask_mapTask_self st id _ (fun u _ => by rw [aid]; exact hid), hf]
        rfl
  · intro t hf he
    unfold updateTask
    rw [hf]
    have hshow : (match some t with
        | none => (st, (Except.error ErrCode.not_found : Except ErrCode Task))
        | some t =>
          if patchEmpty p = true then
            (st, .error (.invalid_argument "no fields to update"))
          else match applyPatch t p now with
               | .error e => (st, .error e)
               | .ok t3 => (mapTask st id (fun _ => t3), .ok t3)) =
        (if patchEmpty p = true then
            (st, (Except.error (ErrCode.invalid_argument "no fields to update") :
              Except ErrCode Task))
         else match applyPatch t p now with
              | .error e => (st, .error e)
              | .ok t3 => (mapTask st id (fun _ => t3), .ok t3)) := rfl
    rw [hshow, if_pos he]

/-- C6 witness: a priority-only patch against the one-task store preserves
every other field, and the empty patch is rejected. -/
theorem C6_witness :
    (∃ t t2 : Task, findTask wSt "gr-aa11" = some t ∧
      (updateTask "gr-aa11" wPatch 9 wSt).2 = .ok t2 ∧
      t2.title = t.title ∧ t2.priority = 1 ∧ t2.status = t.status ∧
      t2.labels = t.labels) ∧
    updateTask "gr-aa11" wPatchNone 9 wSt =
      (wSt, .error (.invalid_argument "no fields to update")) := by
  have hf : ∃ t : Task, findTask wSt "gr-aa11" = some t := by
    cases hq : findTask wSt "gr-aa11" with
    | none =>
      have hd : (findTask wSt "gr-aa11").isSome = true := by decide
      rw [hq] at hd
      cases hd
    | some t => exact ⟨t, rfl⟩
  obtain ⟨t, hft⟩ := hf
  have hok : ∃ t2 : Task, (updateTask "gr-aa11" wPatch 9 wSt).2 = .ok t2 := by
    cases hq : (updateTask "gr-aa11" wPatch 9 wSt).2 with
    | error e =>
      have : ((updateTask "gr-aa11" wPatch 9 wSt).2).isOk = true := by decide
      rw [hq] at this
      cases this
    | ok t2 => exact ⟨t2, rfl⟩
  obtain ⟨t2, hok2⟩ := hok
  obtain ⟨c1, c2⟩ := C6_patch_frame "gr-aa11" wPatch 9 wSt
  obtain ⟨a1, _, _, _, a5, a6, _, a8, _, _⟩ := c1 t t2 hft hok2
  obtain ⟨_, c2e⟩ := C6_patch_frame "gr-aa11" wPatchNone 9 wSt
  refine ⟨⟨t, t2, hft, hok2, a1 rfl, a5 1 rfl, (a6 rfl).1, a8 rfl⟩, c2e t hft (by decide)⟩

/-! ## Claim C5: git-ref uniqueness over the per-task 5-tuple -/

/-- C5: inserting a canonicalized ref whose 5-tuple key equals that of an
existing ref on the same task is a `conflict`; a key differing from every
existing ref on that task (in at least one component) succeeds and appends
the ref to that task only — and since canonicalization maps an absent
`resolved_commit` and an empty-string one to the same canonical ref, the
two collide.  Inserting the same key on a different task goes through the
same success rule against that task's own refs. -/
theorem C5_git_ref_unique_key (tid : String) (req : GitRefReq) (st : List Task) :
    (∀ (t : Task) (r : GitRef), findTask st tid = some t → canonGitRef t req = .ok r →
      (refKey r ∈ t.refs.map refKey → insertGitRef tid req st = (st, .error .conflict)) ∧
      (refKey r ∉ t.refs.map refKey →
        insertGitRef tid req st =
          (mapTask st tid (fun u => { u with refs := u.refs ++ [r] }), .ok r) ∧
        findTask (mapTask st tid (fun u => { u with refs := u.refs ++ [r] })) tid =
          some { t with refs := t.refs ++ [r] })) ∧
    (∀ t : Task, req.resolved_commit = none →
      canonGitRef t req = canonGitRef t { req with resolved_commit := some "" }) := by
  constructor
  · intro t r hf hc
    have hins : insertGitRef tid req st =
        (if refKey r ∈ t.refs.map refKey then (st, .error .conflict)
         else (mapTask st tid (fun u => { u with refs := u.refs ++ [r] }), .ok r)) := by
      unfold insertGitRef
      rw [hf]
      have hstep : (match some t with
          | none => (st, (Except.error ErrCode.not_found : Except ErrCode GitRef))
          | some t2 =>
            match canonGitRef t2 req with
            | .error e => (st, .error e)
            | .ok r2 =>
              if refKey r2 ∈ t2.refs.map refKey then (st, .error .conflict)
              else (mapTask st tid (fun u => { u with refs := u.refs ++ [r2] }), .ok r2)) =
          (match canonGitRef t req with
            | .error e => (st, (.error e : Except ErrCode GitRef))
            | .ok r2 =>
              if refKey r2 ∈ t.refs.map refKey then (st, .error .conflict)
              else (mapTask st tid (fun u => { u with refs := u.refs ++ [r2] }), .ok r2)) := rfl
      rw [hstep, hc]
    constructor
    · intro hm
      rw [hins, if_pos hm]
    · intro hm
      refine ⟨by rw [hins, if_neg hm], ?_⟩
      have hid : t.id = tid := (findTask_some hf).1
      rw [findTask_mapTask_self st tid (fun u => { u with refs := u.refs ++ [r] })
            (fun u hu => hu), hf]
      rfl
  · intro t hres
    have h1 : vResolved { req with resolved_commit := some "" } = vResolved req := by
      unfold vResolved canonResolved
      rw [hres]
      rfl
    unfold canonGitRef
    rw [h1]
    rfl

/-- C5 witness: against the one-task store, the first insert of `wRefReq`
succeeds, re-inserting the same canonical key is a conflict, the
empty-string `resolved_commit` variant produces the same canonical ref,
and the same key on a second task succeeds. -/
theorem C5_witness :
    (findTask wSt "gr-aa11" = some wTask ∧ canonGitRef wTask wRefReq = .ok wRef ∧
     refKey wRef ∉ wTask.refs.map refKey ∧
     insertGitRef "gr-aa11" wRefReq wSt =
       (mapTask wSt "gr-aa11" (fun u => { u with refs := u.refs ++ [wRef] }), .ok wRef)) ∧
    (∃ t2 : Task,
      findTask (mapTask wSt "gr-aa11" (fun u => { u with refs := u.refs ++ [wRef] }))
        "gr-aa11" = some t2 ∧
      refKey wRef ∈ t2.refs.map refKey ∧
      insertGitRef "gr-aa11" wRefReq
        (mapTask wSt "gr-aa11" (fun u => { u with refs := u.refs ++ [wRef] })) =
        (mapTask wSt "gr-aa11" (fun u => { u with refs := u.refs ++ [wRef] }),
         .error .conflict)) ∧
    wRefReq.resolved_commit = none ∧
    canonGitRef wTask wRefReq = canonGitRef wTask { wRefReq with resolved_commit := some "" } := by
  have hf : findTask wSt "gr-aa11" = some wTask := by decide
  have hc : canonGitRef wTask wRefReq = .ok wRef := by decide
  have hm : refKey wRef ∉ wTask.refs.map refKey := by decide
  obtain ⟨hmain, hcol⟩ := C5_git_ref_unique_key "gr-aa11" wRefReq wSt
  obtain ⟨_, hsucc⟩ := hmain wTask wRef hf hc
  obtain ⟨hins, _⟩ := hsucc hm
  have hf2 : findTask (mapTask wSt "gr-aa11" (fun u => { u with refs := u.refs ++ [wRef] }))
      "gr-aa11" = some { wTask with refs := wTask.refs ++ [wRef] } := by decide
  have hm2 : refKey wRef ∈ ({ wTask with refs := wTask.refs ++ [wRef] } : Task).refs.map refKey := by
    decide
  have hc2 : canonGitRef { wTask with refs := wTask.refs ++ [wRef] } wRefReq = .ok wRef := by
    decide
  obtain ⟨hmain2, _⟩ := C5_git_ref_unique_key "gr-aa11" wRefReq
    (mapTask wSt "gr-aa11" (fun u => { u with refs := u.refs ++ [wRef] }))
  obtain ⟨hconf, _⟩ := hmain2 { wTask with refs := wTask.refs ++ [wRef] } wRef hf2 hc2
  exact ⟨⟨hf, hc, hm, hins⟩,
    ⟨{ wTask with refs := wTask.refs ++ [wRef] }, hf2, hm2, hconf hm2⟩,
    by decide, hcol wTask (by decide)⟩

/-! ## Claim C7: import dep-edge semantics per record -/

/-- C7: for a valid record whose id already exists, `dedupe=skip` and
`dedupe=error` leave the store (hence the task's dep edges) untouched,
while `dedupe=overwrite` stores the merged task whose dep edges are
preserved when the record has no `deps` field, cleared when it carries an
empty array, and replaced by the (orphan-filtered) entries otherwise. -/
theorem C7_import_dep_semantics (orph : OrphanMode) (batchIds : List String)
    (now : Nat) (st : List Task) (c : ImportCounts) (rec : ImportRecord)
    (t : Task) (stat : Status)
    (hstat : parseStatus rec.rstatus = some stat)
    (hpri : ¬ 4 < rec.priority)
    (hfind : findTask st rec.id = some t) :
    processRecord .skip orph batchIds now (st, c) rec =
      (st, { c with skipped := c.skipped + 1 }) ∧
    processRecord .error orph batchIds now (st, c) rec =
      (st, { c with errors := c.errors + 1,
                    messages := c.messages ++ ["duplicate id: " ++ rec.id] }) ∧
    (processRecord .overwrite orph batchIds now (st, c) rec).1 =
      mapTask st rec.id (fun _ => overwriteTask t rec stat (st.map Task.id) batchIds now) ∧
    findTask (processRecord .overwrite orph batchIds now (st, c) rec).1 rec.id =
      some (overwriteTask t rec stat (st.map Task.id) batchIds now) ∧
    (rec.deps = none →
      (overwriteTask t rec stat (st.map Task.id) batchIds now).deps = t.deps) ∧
    (rec.deps = some [] →
      (overwriteTask t rec stat (st.map Task.id) batchIds now).deps = []) ∧
    (∀ ds, rec.deps = some ds →
      (overwriteTask t rec stat (st.map Task.id) batchIds now).deps =
        ds.filter (depKeep (st.map Task.id) batchIds)) := by
  have hbase : ∀ ded : DedupeMode, processRecord ded orph batchIds now (st, c) rec =
      (match ded with
       | .skip => (st, { c with skipped := c.skipped + 1 })
       | .error => (st, { c with errors := c.errors + 1,
                                 messages := c.messages ++ ["duplicate id: " ++ rec.id] })
       | .overwrite =>
         (mapTask st rec.id (fun _ => overwriteTask t rec stat (st.map Task.id) batchIds now),
          { c with created := c.created + 1,
                   errors := c.errors + (recMsgs orph batchIds st rec).length,
                   messages := c.messages ++ recMsgs orph batchIds st rec })) := by
    intro ded
    unfold processRecord
    simp only [hstat, hfind, if_neg hpri]
  have hover := hbase .overwrite
  have hid : t.id = rec.id := (findTask_some hfind).1
  have hfind2 : findTask (processRecord .overwrite orph batchIds now (st, c) rec).1 rec.id =
      some (overwriteTask t rec stat (st.map Task.id) batchIds now) := by
    rw [hover]
    have := findTask_mapTask_self st rec.id
      (fun _ => overwriteTask t rec stat (st.map Task.id) batchIds now)
      (fun u hu => hid)
    rw [this, hfind]
    rfl
  refine ⟨hbase .skip, hbase .error, by rw [hover], hfind2, ?_, ?_, ?_⟩
  · intro hd
    unfold overwriteTask
    rw [hd]
  · intro hd
    unfold overwriteTask
    rw [hd]
    rfl
  · intro ds hd
    unfold overwriteTask
    rw [hd]

/-- C7 witness: overwriting task `gr-aa11` with a record carrying no
`deps` field preserves its dep edges; the skip and error modes leave the
store untouched. -/
theorem C7_witness :
    (parseStatus wRecOver.rstatus = some Status.closed ∧ ¬ 4 < wRecOver.priority ∧
     findTask wSt wRecOver.id = some wTask) ∧
    processRecord .skip OrphanMode.lenient [] 9 (wSt, ⟨0, 0, 0, []⟩) wRecOver =
      (wSt, { created := 0, skipped := 1, errors := 0, messages := [] }) ∧
    (overwriteTask wTask wRecOver Status.closed (wSt.map Task.id) [] 9).deps =
      wTask.deps := by
  have hstat : parseStatus wRecOver.rstatus = some Status.closed := by decide
  have hpri : ¬ 4 < wRecOver.priority := by decide
  have hfind : findTask wSt wRecOver.id = some wTask := by decide
  obtain ⟨hskip, _, _, _, hdeps, _, _⟩ :=
    C7_import_dep_semantics OrphanMode.lenient [] 9 wSt ⟨0, 0, 0, []⟩ wRecOver wTask
      Status.closed hstat hpri hfind
  exact ⟨⟨hstat, hpri, hfind⟩, hskip, hdeps (by decide)⟩

/-! ## Claim C8: strict orphan handling -/

/-- C8: in strict orphan-handling mode, a valid new-id record with a dep
whose parent exists neither in the store nor in the import batch is
processed by applying the scalar upsert (counted in `created`), adding at
least one error entry whose message contains `strict orphan dep`, and
dropping the orphan edge from the stored task. -/
theorem C8_strict_orphan_partial (ded : DedupeMode) (batchIds : List String)
    (now : Nat) (st : List Task) (c : ImportCounts) (rec : ImportRecord)
    (stat : Status) (ds : List String) (d : String)
    (hstat : parseStatus rec.rstatus = some stat)
    (hpri : ¬ 4 < rec.priority)
    (hfind : findTask st rec.id = none)
    (hdeps : rec.deps = some ds)
    (hd : d ∈ ds)
    (hnostore : d ∉ st.map Task.id)
    (hnobatch : d ∉ batchIds) :
    processRecord ded .strict batchIds now (st, c) rec =
      (st ++ [taskFromRecord rec stat (st.map Task.id) batchIds now],
       { c with created := c.created + 1,
                errors := c.errors + (recMsgs .strict batchIds st rec).length,
                messages := c.messages ++ recMsgs .strict batchIds st rec }) ∧
    ("strict orphan dep: " ++ d) ∈ recMsgs .strict batchIds st rec ∧
    1 ≤ (recMsgs .strict batchIds st rec).length ∧
    ("strict orphan dep" : String).data <:+: ("strict orphan dep: " ++ d).data ∧
    d ∉ (taskFromRecord rec stat (st.map Task.id) batchIds now).deps ∧
    (taskFromRecord rec stat (st.map Task.id) batchIds now).id = rec.id := by
  have hcon : ∀ (l : List String) (x : String), x ∉ l → l.contains x = false := by
    intro l x hx
    rw [List.contains_eq_any_beq, List.any_eq_false]
    intro y hy
    simp only [beq_iff_eq, ne_eq]
    intro he
    exact hx (he ▸ hy)
  have hkeep : depKeep (st.map Task.id) batchIds d = false := by
    unfold depKeep
    rw [hcon _ _ hnostore, hcon _ _ hnobatch]
    rfl
  have hmsg : ("strict orphan dep: " ++ d) ∈ recMsgs .strict batchIds st rec := by
    unfold recMsgs
    rw [hdeps]
    unfold orphanMsgs
    exact List.mem_map_of_mem _ (List.mem_filter.mpr ⟨hd, by rw [hkeep]; rfl⟩)
  refine ⟨?_, hmsg, ?_, ?_, ?_, rfl⟩
  · unfold processRecord
    simp only [hstat, hfind, if_neg hpri]
  · exact List.length_pos.mpr (List.ne_nil_of_mem hmsg)
  · refine ⟨[], (": " ++ d).data, ?_⟩
    have hsplit : ("strict orphan dep: " ++ d).data =
        ("strict orphan dep" : String).data ++ (": " ++ d).data := by
      cases d
      rfl
    rw [hsplit]
    rfl
  · intro hmem
    unfold taskFromRecord at hmem
    rw [hdeps] at hmem
    have hmem2 : d ∈ ds.filter (depKeep (st.map Task.id) batchIds) := hmem
    have := (List.mem_filter.mp hmem2).2
    rw [hkeep] at this
    cases this

/-- C8 witness: importing the orphan record `wRecOrphan` into the empty
store in strict mode creates the task without the orphan edge and reports
the structured error. -/
theorem C8_witness :
    (parseStatus wRecOrphan.rstatus = some Status.open_ ∧ ¬ 4 < wRecOrphan.priority ∧
     findTask [] wRecOrphan.id = none ∧ wRecOrphan.deps = some ["gr-zz99"] ∧
     "gr-zz99" ∈ ["gr-zz99"] ∧ "gr-zz99" ∉ ([] : List Task).map Task.id ∧
     "gr-zz99" ∉ ([] : List String)) ∧
    processRecord .skip .strict [] 9 ([], ⟨0, 0, 0, []⟩) wRecOrphan =
      ([] ++ [taskFromRecord wRecOrphan Status.open_ (([] : List Task).map Task.id) [] 9],
       { created := 0 + 1, skipped := 0,
         errors := 0 + (recMsgs .strict [] [] wRecOrphan).length,
         messages := [] ++ recMsgs .strict [] [] wRecOrphan }) ∧
    ("strict orphan dep: " ++ "gr-zz99") ∈ recMsgs .strict [] [] wRecOrphan ∧
    "gr-zz99" ∉ (taskFromRecord wRecOrphan Status.open_ (([] : List Task).map Task.id) [] 9).deps := by
  have h1 : parseStatus wRecOrphan.rstatus = some Status.open_ := by decide
  have h2 : ¬ 4 < wRecOrphan.priority := by decide
  have h3 : findTask [] wRecOrphan.id = none := rfl
  have h4 : wRecOrphan.deps = some ["gr-zz99"] := by decide
  have h5 : "gr-zz99" ∈ ["gr-zz99"] := by decide
  have h6 : "gr-zz99" ∉ ([] : List Task).map Task.id := by decide
  have h7 : "gr-zz99" ∉ ([] : List String) := by decide
  obtain ⟨heq, hmsg, _, _, hdrop, _⟩ :=
    C8_strict_orphan_partial .skip [] 9 [] ⟨0, 0, 0, []⟩ wRecOrphan Status.open_
      ["gr-zz99"] "gr-zz99" h1 h2 h3 h4 h5 h6 h7
  exact ⟨⟨h1, h2, h3, h4, h5, h6, h7⟩, heq, hmsg, hdrop⟩

/-! ## Claim C4: close-with-commit annotation is idempotent -/

theorem closeTask_source (now : Nat) (t : Task) :
    (closeTask now t).source_repo = t.source_repo := by
  unfold closeTask
  split <;> rfl

theorem closeTask_refs (now : Nat) (t : Task) : (closeTask now t).refs = t.refs := by
  unfold closeTask
  split <;> rfl

theorem closeTask_closed (now : Nat) (t : Task) :
    (closeTask now t).status = Status.closed := by
  unfold closeTask
  by_cases h : t.status = Status.closed
  · rw [if_pos h]; exact h
  · rw [if_neg h]

theorem annStep_id (reqRepo : Option String) (commit : String) (now : Nat) (t : Task) :
    (annStep reqRepo commit now t).1.id = t.id := by
  unfold annStep annotateTask
  split <;> exact closeTask_id now t

theorem annStep_source (reqRepo : Option String) (commit : String) (now : Nat) (t : Task) :
    (annStep reqRepo commit now t).1.source_repo = t.source_repo := by
  unfold annStep annotateTask
  split <;> exact closeTask_source now t

theorem annStep_status (reqRepo : Option String) (commit : String) (now : Nat) (t : Task) :
    (annStep reqRepo commit now t).1.status = Status.closed := by
  unfold annStep annotateTask
  split <;> exact closeTask_closed now t

theorem annStep_repoFor (reqRepo : Option String) (commit : String) (now : Nat) (t : Task) :
    repoForTask reqRepo (annStep reqRepo commit now t).1 = repoForTask reqRepo t := by
  unfold repoForTask
  cases reqRepo with
  | some r => rfl
  | none => exact annStep_source none commit now t

theorem annStep_fresh (reqRepo : Option String) (commit : String) (now : Nat) (t : Task)
    (hm : refKey (annotateRef ((repoForTask reqRepo t).getD "") commit) ∉
      t.refs.map refKey) :
    annStep reqRepo commit now t =
      ({ closeTask now t with
          refs := t.refs ++ [annotateRef ((repoForTask reqRepo t).getD "") commit] }, 1) := by
  unfold annStep annotateTask
  rw [closeTask_refs, if_neg hm]

theorem annStep_already (reqRepo : Option String) (commit : String) (now : Nat) (t : Task)
    (hcl : t.status = Status.closed)
    (hm : refKey (annotateRef ((repoForTask reqRepo t).getD "") commit) ∈
      t.refs.map refKey) :
    annStep reqRepo commit now t = (t, 0) := by
  unfold annStep annotateTask
  have hct : closeTask now t = t := by
    unfold closeTask
    rw [if_pos hcl]
  rw [hct, if_pos hm]

theorem mapTask_ids (st : List Task) (id : String) (f : Task → Task)
    (hf : ∀ t : Task, t.id = id → (f t).id = t.id) :
    (mapTask st id f).map Task.id = st.map Task.id := by
  induction st with
  | nil => rfl
  | cons a t ih =>
    have hmc : mapTask (a :: t) id f = (if a.id = id then f a else a) :: mapTask t id f := rfl
    rw [hmc, List.map_cons, List.map_cons, ih]
    by_cases ha : a.id = id
    · rw [if_pos ha, hf a ha]
    · rw [if_neg ha]

theorem mapTask_absent (st : List Task) (id : String) (f : Task → Task)
    (h : ∀ t ∈ st, t.id ≠ id) : mapTask st id f = st := by
  induction st with
  | nil => rfl
  | cons a t ih =>
    have hmc : mapTask (a :: t) id f = (if a.id = id then f a else a) :: mapTask t id f := rfl
    rw [hmc, if_neg (h a (List.mem_cons_self a t)),
        ih (fun u hu => h u (List.mem_cons_of_mem a hu))]

theorem mapTask_self_of_nodup (st : List Task) (id : String) (t : Task)
    (hnd : (st.map Task.id).Nodup) (hf : findTask st id = some t) :
    mapTask st id (fun _ => t) = st := by
  induction st with
  | nil => cases hf
  | cons a st2 ih =>
    rw [findTask_cons] at hf
    have hmc : mapTask (a :: st2) id (fun _ => t) =
        (if a.id = id then t else a) :: mapTask st2 id (fun _ => t) := rfl
    rw [List.map_cons] at hnd
    by_cases ha : a.id = id
    · rw [if_pos ha] at hf
      obtain rfl : a = t := Option.some.inj hf
      rw [hmc, if_pos ha, mapTask_absent]
      intro u hu he
      apply (List.nodup_cons.mp hnd).1
      rw [ha, ← he]
      exact List.mem_map_of_mem Task.id hu
    · rw [if_neg ha] at hf
      rw [hmc, if_neg ha, ih (List.nodup_cons.mp hnd).2 hf]

theorem closeAnnGo_cons_some (reqRepo : Option String) (commit : String) (now : Nat)
    (id : String) (rest : List String) (st : List Task) (t : Task)
    (hf : findTask st id = some t) :
    closeAnnGo reqRepo commit now (id :: rest) st =
      ((closeAnnGo reqRepo commit now rest
          (mapTask st id (fun _ => (annStep reqRepo commit now t).1))).1,
       (annStep reqRepo commit now t).2 +
         (closeAnnGo reqRepo commit now rest
           (mapTask st id (fun _ => (annStep reqRepo commit now t).1))).2) := by
  conv_lhs => unfold closeAnnGo
  rw [hf]

theorem closeAnnGo_run (reqRepo : Option String) (commit : String) (now : Nat) :
    ∀ (ids : List String) (st : List Task),
    (st.map Task.id).Nodup → ids.Nodup →
    (∀ id ∈ ids, ∀ t : Task, findTask st id = some t →
      refKey (annotateRef ((repoForTask reqRepo t).getD "") commit) ∉ t.refs.map refKey) →
    (∀ id ∈ ids, (findTask st id).isSome = true) →
    (closeAnnGo reqRepo commit now ids st).2 = ids.length ∧
    (closeAnnGo reqRepo commit now ids st).1.map Task.id = st.map Task.id ∧
    (∀ id2, id2 ∉ ids →
      findTask (closeAnnGo reqRepo commit now ids st).1 id2 = findTask st id2) ∧
    (∀ id ∈ ids, ∀ t : Task, findTask st id = some t →
      findTask (closeAnnGo reqRepo commit now ids st).1 id =
        some (annStep reqRepo commit now t).1) := by
  intro ids
  induction ids with
  | nil =>
    intro st h1 h2 h3 h4
    exact ⟨rfl, rfl, fun id2 _ => rfl, by simp⟩
  | cons i rest ih =>
    intro st hnd hidnd hfresh hex
    have hexi := hex i (List.mem_cons_self i rest)
    cases hfi : findTask st i with
    | none => rw [hfi] at hexi; cases hexi
    | some t =>
    have hti : t.id = i := (findTask_some hfi).1
    have hfA : ∀ u : Task, u.id = i → ((fun _ => (annStep reqRepo commit now t).1) u).id = i := by
      intro u _
      rw [annStep_id]
      exact hti
    have hfB : ∀ u : Task, u.id = i → ((fun _ => (annStep reqRepo commit now t).1) u).id = u.id := by
      intro u hu
      rw [annStep_id, hti, hu]
    have hids2 : (mapTask st i (fun _ => (annStep reqRepo commit now t).1)).map Task.id =
        st.map Task.id := mapTask_ids st i _ hfB
    have hnd2 : ((mapTask st i (fun _ => (annStep reqRepo commit now t).1)).map Task.id).Nodup := by
      rw [hids2]; exact hnd
    have hinr : i ∉ rest := (List.nodup_cons.mp hidnd).1
    have hframe1 : ∀ id2, id2 ≠ i →
        findTask (mapTask st i (fun _ => (annStep reqRepo commit now t).1)) id2 =
          findTask st id2 := by
      intro id2 hne
      exact findTask_mapTask_ne st i id2 _ hfA hne
    have hex2 : ∀ id2 ∈ rest,
        (findTask (mapTask st i (fun _ => (annStep reqRepo commit now t).1)) id2).isSome = true := by
      intro id2 h2
      have hne : id2 ≠ i := fun he => hinr (he ▸ h2)
      rw [hframe1 id2 hne]
      exact hex id2 (List.mem_cons_of_mem i h2)
    have hfresh2 : ∀ id2 ∈ rest, ∀ u : Task,
        findTask (mapTask st i (fun _ => (annStep reqRepo commit now t).1)) id2 = some u →
        refKey (annotateRef ((repoForTask reqRepo u).getD "") commit) ∉ u.refs.map refKey := by
      intro id2 h2 u hu
      have hne : id2 ≠ i := fun he => hinr (he ▸ h2)
      rw [hframe1 id2 hne] at hu
      exact hfresh id2 (List.mem_cons_of_mem i h2) u hu
    obtain ⟨ihn, ihids, ihframe, ihper⟩ :=
      ih (mapTask st i (fun _ => (annStep reqRepo commit now t).1)) hnd2
        (List.nodup_cons.mp hidnd).2 hfresh2 hex2
    have hcnt : (annStep reqRepo commit now t).2 = 1 := by
      rw [annStep_fresh reqRepo commit now t (hfresh i (List.mem_cons_self i rest) t hfi)]
    rw [closeAnnGo_cons_some reqRepo commit now i rest st t hfi]
    refine ⟨?_, ?_, ?_, ?_⟩
    · show (annStep reqRepo commit now t).2 + _ = _
      rw [hcnt, ihn]
      simp [Nat.add_comm]
    · show (closeAnnGo reqRepo commit now rest _).1.map Task.id = _
      rw [ihids, hids2]
    · intro id2 h2
      have hne : id2 ≠ i := fun he => h2 (he ▸ List.mem_cons_self i rest)
      have hnr : id2 ∉ rest := fun hr => h2 (List.mem_cons_of_mem i hr)
      show findTask (closeAnnGo reqRepo commit now rest _).1 id2 = _
      rw [ihframe id2 hnr, hframe1 id2 hne]
    · intro id2 h2 t0 ht0
      rcases List.mem_cons.mp h2 with he | hr
      · subst he
        rw [hfi] at ht0
        obtain rfl : t = t0 := Option.some.inj ht0
        show findTask (closeAnnGo reqRepo commit now rest _).1 id2 = _
        rw [ihframe id2 hinr]
        rw [findTask_mapTask_self st id2 _ hfA, hfi]
        rfl
      · have hne : id2 ≠ i := fun he => hinr (he ▸ hr)
        show findTask (closeAnnGo reqRepo commit now rest _).1 id2 = _
        exact ihper id2 hr t0 (by rw [hframe1 id2 hne]; exact ht0)

theorem closeAnnGo_fix (reqRepo : Option String) (commit : String) (now2 : Nat) :
    ∀ (ids : List String) (st : List Task),
    (st.map Task.id).Nodup →
    (∀ id ∈ ids, ∃ t : Task, findTask st id = some t ∧ t.status = Status.closed ∧
      refKey (annotateRef ((repoForTask reqRepo t).getD "") commit) ∈ t.refs.map refKey) →
    closeAnnGo reqRepo commit now2 ids st = (st, 0) := by
  intro ids
  induction ids with
  | nil => intro st _ _; rfl
  | cons i rest ih =>
    intro st hnd hall
    obtain ⟨t, hfi, hcl, hkey⟩ := hall i (List.mem_cons_self i rest)
    rw [closeAnnGo_cons_some reqRepo commit now2 i rest st t hfi]
    have hstep : annStep reqRepo commit now2 t = (t, 0) :=
      annStep_already reqRepo commit now2 t hcl hkey
    rw [hstep, mapTask_self_of_nodup st i t hnd hfi,
        ih st hnd (fun id2 h2 => hall id2 (List.mem_cons_of_mem i h2))]
    rfl

theorem closeWithCommit_ok (ids : List String) (commitRaw : String)
    (repoRaw reqRepo : Option String) (now : Nat) (st : List Task)
    (hhash : isGitHash (normalizeHash commitRaw) = true)
    (hrepo : (match repoRaw with
              | none => some none
              | some r => (canonical_repo_slug r).map some) = some reqRepo)
    (hex : ids.all (fun id => (findTask st id).isSome) = true)
    (hrf : ids.all (fun id => (taskRepo st reqRepo id).isSome) = true) :
    closeWithCommit ids commitRaw repoRaw now st =
      ((closeAnnGo reqRepo (normalizeHash commitRaw) now ids st).1,
       .ok (closeAnnGo reqRepo (normalizeHash commitRaw) now ids st).2) := by
  unfold closeWithCommit
  rw [if_neg (fun hc => hc hhash), hrepo]
  have hred : (match some reqRepo with
      | none => (st, (Except.error (ErrCode.invalid_argument "invalid repo") :
          Except ErrCode Nat))
      | some rr =>
        if ¬ ids.all (fun id => (findTask st id).isSome) then (st, .error .not_found)
        else if ¬ ids.all (fun id => (taskRepo st rr id).isSome) then
          (st, .error (.invalid_argument "repo is required"))
        else ((closeAnnGo rr (normalizeHash commitRaw) now ids st).1,
              .ok (closeAnnGo rr (normalizeHash commitRaw) now ids st).2)) =
      (if ¬ ids.all (fun id => (findTask st id).isSome) then
        (st, (Except.error ErrCode.not_found : Except ErrCode Nat))
      else if ¬ ids.all (fun id => (taskRepo st reqRepo id).isSome) then
        (st, .error (.invalid_argument "repo is required"))
      else ((closeAnnGo reqRepo (normalizeHash commitRaw) now ids st).1,
            .ok (closeAnnGo reqRepo (normalizeHash commitRaw) now ids st).2)) := rfl
  rw [hred, if_neg (fun hc => hc hex), if_neg (fun hc => hc hrf)]

/-- C4: with every target existing, a valid commit, a resolvable repo per
target and no pre-existing annotation key, the first close-with-commit
reports `annotated = ids.length` and stores exactly one `closed_by` commit
ref per target; re-invoking with the same inputs returns the store
unchanged and `annotated = 0`. -/
theorem C4_close_annotation_idempotent (ids : List String) (commitRaw : String)
    (repoRaw reqRepo : Option String) (now now2 : Nat) (st : List Task)
    (hnodup : ids.Nodup) (hstnodup : (st.map Task.id).Nodup)
    (hhash : isGitHash (normalizeHash commitRaw) = true)
    (hrepo : (match repoRaw with
              | none => some none
              | some r => (canonical_repo_slug r).map some) = some reqRepo)
    (hex : ∀ id ∈ ids, (findTask st id).isSome = true)
    (hrf : ∀ id ∈ ids, (taskRepo st reqRepo id).isSome = true)
    (hfresh : ∀ id ∈ ids, ∀ t : Task, findTask st id = some t →
      refKey (annotateRef ((repoForTask reqRepo t).getD "") (normalizeHash commitRaw)) ∉
        t.refs.map refKey) :
    closeWithCommit ids commitRaw repoRaw now st =
      ((closeAnnGo reqRepo (normalizeHash commitRaw) now ids st).1, .ok ids.length) ∧
    (∀ id ∈ ids, ∀ t : Task, findTask st id = some t →
      findTask (closeAnnGo reqRepo (normalizeHash commitRaw) now ids st).1 id =
        some (annStep reqRepo (normalizeHash commitRaw) now t).1 ∧
      (annStep reqRepo (normalizeHash commitRaw) now t).1.status = Status.closed ∧
      ((annStep reqRepo (normalizeHash commitRaw) now t).1.refs.map refKey).count
        (refKey (annotateRef ((repoForTask reqRepo t).getD "") (normalizeHash commitRaw))) =
          1) ∧
    closeWithCommit ids commitRaw repoRaw now2
      (closeAnnGo reqRepo (normalizeHash commitRaw) now ids st).1 =
      ((closeAnnGo reqRepo (normalizeHash commitRaw) now ids st).1, .ok 0) := by
  obtain ⟨hrun2, hrunids, hrunframe, hrunper⟩ :=
    closeAnnGo_run reqRepo (normalizeHash commitRaw) now ids st hstnodup hnodup hfresh hex
  have hperfull : ∀ id ∈ ids, ∀ t : Task, findTask st id = some t →
      findTask (closeAnnGo reqRepo (normalizeHash commitRaw) now ids st).1 id =
        some (annStep reqRepo (normalizeHash commitRaw) now t).1 ∧
      (annStep reqRepo (normalizeHash commitRaw) now t).1.status = Status.closed ∧
      ((annStep reqRepo (normalizeHash commitRaw) now t).1.refs.map refKey).count
        (refKey (annotateRef ((repoForTask reqRepo t).getD "") (normalizeHash commitRaw))) =
          1 := by
    intro id hid t ht
    have hkey := hfresh id hid t ht
    refine ⟨hrunper id hid t ht, annStep_status _ _ _ _, ?_⟩
    rw [annStep_fresh reqRepo (normalizeHash commitRaw) now t hkey]
    show ((t.refs ++ [annotateRef ((repoForTask reqRepo t).getD "")
        (normalizeHash commitRaw)]).map refKey).count _ = 1
    rw [List.map_append, List.count_append]
    rw [List.count_eq_zero.mpr hkey]
    simp
  refine ⟨?_, hperfull, ?_⟩
  · rw [closeWithCommit_ok ids commitRaw repoRaw reqRepo now st hhash hrepo
        (List.all_eq_true.mpr (fun id hid => hex id hid))
        (List.all_eq_true.mpr (fun id hid => hrf id hid)), hrun2]
  · have hex1 : ∀ id ∈ ids,
        (findTask (closeAnnGo reqRepo (normalizeHash commitRaw) now ids st).1 id).isSome =
          true := by
      intro id hid
      have := hex id hid
      cases ht : findTask st id with
      | none => rw [ht] at this; cases this
      | some t =>
        rw [(hperfull id hid t ht).1]
        rfl
    have hrf1 : ∀ id ∈ ids,
        (taskRepo (closeAnnGo reqRepo (normalizeHash commitRaw) now ids st).1 reqRepo
          id).isSome = true := by
      intro id hid
      have h0 := hrf id hid
      cases ht : findTask st id with
      | none =>
        have := hex id hid
        rw [ht] at this
        cases this
      | some t =>
        unfold taskRepo at h0 ⊢
        rw [ht] at h0
        rw [(hperfull id hid t ht).1]
        have hb : (some (annStep reqRepo (normalizeHash commitRaw) now t).1).bind
            (fun u => repoForTask reqRepo u) =
            repoForTask reqRepo (annStep reqRepo (normalizeHash commitRaw) now t).1 := rfl
        rw [hb, annStep_repoFor]
        have hb2 : (some t).bind (fun u => repoForTask reqRepo u) = repoForTask reqRepo t := rfl
        rw [hb2] at h0
        exact h0
    have hnd1 : ((closeAnnGo reqRepo (normalizeHash commitRaw) now ids st).1.map
        Task.id).Nodup := by
      rw [hrunids]
      exact hstnodup
    have hall1 : ∀ id ∈ ids, ∃ t1 : Task,
        findTask (closeAnnGo reqRepo (normalizeHash commitRaw) now ids st).1 id = some t1 ∧
        t1.status = Status.closed ∧
        refKey (annotateRef ((repoForTask reqRepo t1).getD "") (normalizeHash commitRaw)) ∈
          t1.refs.map refKey := by
      intro id hid
      have := hex id hid
      cases ht : findTask st id with
      | none => rw [ht] at this; cases this
      | some t =>
        obtain ⟨hfind1, hclosed1, _⟩ := hperfull id hid t ht
        refine ⟨(annStep reqRepo (normalizeHash commitRaw) now t).1, hfind1, hclosed1, ?_⟩
        rw [annStep_repoFor]
        rw [annStep_fresh reqRepo (normalizeHash commitRaw) now t
          (hfresh id hid t ht)]
        show refKey (annotateRef ((repoForTask reqRepo t).getD "") (normalizeHash commitRaw)) ∈
          ((t.refs ++ [annotateRef ((repoForTask reqRepo t).getD "")
            (normalizeHash commitRaw)]).map refKey)
        rw [List.map_append]
        exact List.mem_append_right _ (by simp)
    rw [closeWithCommit_ok ids commitRaw repoRaw reqRepo now2 _ hhash hrepo
        (List.all_eq_true.mpr (fun id hid => hex1 id hid))
        (List.all_eq_true.mpr (fun id hid => hrf1 id hid)),
      closeAnnGo_fix reqRepo (normalizeHash commitRaw) now2 ids _ hnd1 hall1]

/-- C4 witness: closing the single task `gr-aa11` (whose `source_repo`
supplies the repo) with a valid commit annotates once, and the repeated
call returns the unchanged store with `annotated = 0`. -/
theorem C4_witness :
    ((["gr-aa11"] : List String).Nodup ∧ (wSt.map Task.id).Nodup ∧
     isGitHash (normalizeHash wHash) = true ∧
     (∀ id ∈ (["gr-aa11"] : List String), (findTask wSt id).isSome = true) ∧
     (∀ id ∈ (["gr-aa11"] : List String), (taskRepo wSt none id).isSome = true)) ∧
    closeWithCommit ["gr-aa11"] wHash none 7 wSt =
      ((closeAnnGo none (normalizeHash wHash) 7 ["gr-aa11"] wSt).1, .ok 1) ∧
    closeWithCommit ["gr-aa11"] wHash none 9
      (closeAnnGo none (normalizeHash wHash) 7 ["gr-aa11"] wSt).1 =
      ((closeAnnGo none (normalizeHash wHash) 7 ["gr-aa11"] wSt).1, .ok 0) := by
  have hnodup : (["gr-aa11"] : List String).Nodup := by decide
  have hstnodup : (wSt.map Task.id).Nodup := by decide
  have hhash : isGitHash (normalizeHash wHash) = true := by decide
  have hex : ∀ id ∈ (["gr-aa11"] : List String), (findTask wSt id).isSome = true := by decide
  have hrf : ∀ id ∈ (["gr-aa11"] : List String), (taskRepo wSt none id).isSome = true := by
    decide
  have hfresh : ∀ id ∈ (["gr-aa11"] : List String), ∀ t : Task, findTask wSt id = some t →
      refKey (annotateRef ((repoForTask none t).getD "") (normalizeHash wHash)) ∉
        t.refs.map refKey := by
    intro id hid t ht
    have hone : id = "gr-aa11" := by simpa using hid
    subst hone
    have hw : findTask wSt "gr-aa11" = some wTask := by decide
    rw [hw] at ht
    obtain rfl := (Option.some.inj ht).symm
    decide
  obtain ⟨h1, _, h3⟩ := C4_close_annotation_idempotent ["gr-aa11"] wHash none none 7 9 wSt
    hnodup hstnodup hhash rfl hex hrf hfresh
  exact ⟨⟨hnodup, hstnodup, hhash, hex, hrf⟩, h1, h3⟩

/-! ## Claim C9: serialized concurrent creates yield distinct ids -/

theorem findTask_append_some {st : List Task} {l : List Task} {id : String} {u : Task}
    (h : findTask st id = some u) : findTask (st ++ l) id = some u := by
  induction st with
  | nil => cases h
  | cons a t ih =>
    rw [findTask_cons] at h
    rw [List.cons_append, findTask_cons]
    by_cases ha : a.id = id
    · rw [if_pos ha] at h ⊢; exact h
    · rw [if_neg ha] at h ⊢; exact ih h

theorem findTask_append_none {st : List Task} {l : List Task} {id : String}
    (h : findTask st id = none) : findTask (st ++ l) id = findTask l id := by
  induction st with
  | nil => rfl
  | cons a t ih =>
    rw [findTask_cons] at h
    rw [List.cons_append, findTask_cons]
    by_cases ha : a.id = id
    · rw [if_pos ha] at h; cases h
    · rw [if_neg ha] at h ⊢; exact ih h

theorem createTask_ok {req : CreateReq} {id : String} {now : Nat} {st st2 : List Task}
    {t : Task} (h : createTask req id now st = (st2, .ok t)) :
    st2 = st ++ [t] ∧ t.id = id ∧ findTask st id = none := by
  unfold createTask at h
  split at h
  · have h2 := congrArg Prod.snd h; simp at h2
  · split at h
    · have h2 := congrArg Prod.snd h; simp at h2
    · split at h
      · have h2 := congrArg Prod.snd h; simp at h2
      · split at h
        · have h2 := congrArg Prod.snd h; simp at h2
        · split at h
          · have h2 := congrArg Prod.snd h; simp at h2
          · split at h
            · have h2 := congrArg Prod.snd h; simp at h2
            · rename_i hns
              have hfst := congrArg Prod.fst h
              have hsnd := congrArg Prod.snd h
              simp only at hfst hsnd
              have ht : mkTask req id now _ _ = t := Except.ok.inj hsnd
              have hfo : findTask st id = none := by
                cases hq : findTask st id with
                | none => rfl
                | some u => rw [hq] at hns; exact absurd rfl hns
              exact ⟨by rw [← hfst, ht], by rw [← ht]; rfl, hfo⟩

theorem runCreates_spec : ∀ (reqs : List (CreateReq × String)) (now : Nat)
    (st stF : List Task) (ids : List String),
    runCreates reqs now st = some (stF, ids) →
    ids.length = reqs.length ∧ ids.Nodup ∧
    (∀ id ∈ ids, (findTask stF id).isSome = true) ∧
    (∀ id, (findTask st id).isSome = true → (findTask stF id).isSome = true) ∧
    (∀ id ∈ ids, findTask st id = none) := by
  intro reqs
  induction reqs with
  | nil =>
    intro now st stF ids h
    have h2 := Option.some.inj h
    obtain rfl : st = stF := congrArg Prod.fst h2
    obtain rfl : ([] : List String) = ids := congrArg Prod.snd h2
    exact ⟨rfl, List.nodup_nil, by simp, fun id hi => hi, by simp⟩
  | cons ri rest ih =>
    intro now st stF ids h
    unfold runCreates at h
    cases hc : createTask ri.1 ri.2 now st with
    | mk st2 res =>
      rw [hc] at h
      cases res with
      | error e =>
        have h2 : (none : Option (List Task × List String)) = some (stF, ids) := h
        cases h2
      | ok t =>
        have h2 : (match runCreates rest (now + 1) st2 with
          | none => none
          | some (stF2, ids2) => some (stF2, t.id :: ids2)) = some (stF, ids) := h
        cases hr : runCreates rest (now + 1) st2 with
        | none => rw [hr] at h2; cases h2
        | some p =>
          obtain ⟨stF2, ids2⟩ := p
          rw [hr] at h2
          have h3 : some (stF2, t.id :: ids2) = some (stF, ids) := h2
          have h4 := Option.some.inj h3
          have hfst : stF2 = stF := congrArg Prod.fst h4
          have hsnd : t.id :: ids2 = ids := congrArg Prod.snd h4
          subst hfst
          subst hsnd
          obtain ⟨hst2, htid, hnone⟩ := createTask_ok hc
          subst hst2
          obtain ⟨ihlen, ihnd, ihmem, ihpers, ihnew⟩ := ih (now + 1) (st ++ [t]) stF2 ids2 hr
          have hself : findTask (st ++ [t]) t.id = some t := by
            rw [findTask_append_none (htid ▸ hnone), findTask_cons, if_pos rfl]
          refine ⟨by simp [ihlen], ?_, ?_, ?_, ?_⟩
          · rw [List.nodup_cons]
            refine ⟨fun hmem2 => ?_, ihnd⟩
            have := ihnew t.id hmem2
            rw [hself] at this
            cases this
          · intro id hid
            rcases List.mem_cons.mp hid with he | hmem2
            · subst he
              exact ihpers t.id (by rw [hself]; rfl)
            · exact ihmem id hmem2
          · intro id hsome
            cases hq : findTask st id with
            | none => rw [hq] at hsome; cases hsome
            | some u => exact ihpers id (by rw [findTask_append_some hq]; rfl)
          · intro id hid
            rcases List.mem_cons.mp hid with he | hmem2
            · subst he
              exact htid ▸ hnone
            · have := ihnew id hmem2
              cases hq : findTask st id with
              | none => rfl
              | some u =>
                rw [findTask_append_some hq] at this
                cases this

/-- C9: under the spec's single-writer serialization, any serial execution
of N Create calls in which every call succeeds yields N pairwise-distinct
task ids, all of which appear in a subsequent listing of the store. -/
theorem C9_concurrent_creates_distinct (reqs : List (CreateReq × String)) (now : Nat)
    (st stF : List Task) (ids : List String)
    (h : runCreates reqs now st = some (stF, ids)) :
    ids.length = reqs.length ∧ ids.Nodup ∧ ∀ id ∈ ids, id ∈ listIds stF := by
  obtain ⟨h1, h2, h3, _, _⟩ := runCreates_spec reqs now st stF ids h
  refine ⟨h1, h2, fun id hid => ?_⟩
  have hs := h3 id hid
  cases hfo : findTask stF id with
  | none => rw [hfo] at hs; cases hs
  | some u =>
    obtain ⟨hu, hmem⟩ := findTask_some hfo
    unfold listIds
    rw [← hu]
    exact List.mem_map_of_mem Task.id hmem

/-- C9 witness: two serialized creates with distinct bodies both succeed,
produce two distinct ids, and both ids appear in the final listing. -/
theorem C9_witness :
    ∃ (stF : List Task) (ids : List String),
      runCreates [(wReq, "gr-aa11"), (wReq2, "gr-bb22")] 0 [] = some (stF, ids) ∧
      ids.length = 2 ∧ ids.Nodup ∧ ∀ id ∈ ids, id ∈ listIds stF := by
  cases hr : runCreates [(wReq, "gr-aa11"), (wReq2, "gr-bb22")] 0 [] with
  | none =>
    have hs : (runCreates [(wReq, "gr-aa11"), (wReq2, "gr-bb22")] 0 []).isSome = true := by
      decide
    rw [hr] at hs
    cases hs
  | some p =>
    obtain ⟨stF, ids⟩ := p
    obtain ⟨h1, h2, h3⟩ :=
      C9_concurrent_creates_distinct [(wReq, "gr-aa11"), (wReq2, "gr-bb22")] 0 [] stF ids hr
    exact ⟨stF, ids, rfl, h1, h2, h3⟩

/-! ## Claim C2: label and closed_at invariants -/

theorem ltChars_irrefl : ∀ a : List Char, ltChars a a = false
  | [] => rfl
  | x :: xs => by
    unfold ltChars
    rw [if_neg (lt_irrefl x), if_neg (lt_irrefl x)]
    exact ltChars_irrefl xs

theorem ltChars_trans : ∀ a b c : List Char,
    ltChars a b = true → ltChars b c = true → ltChars a c = true := by
  intro a
  induction a with
  | nil =>
    intro b c hab hbc
    cases c with
    | cons z zs => rfl
    | nil =>
      cases b with
      | nil => exact absurd hab (by simp [ltChars])
      | cons y ys => exact absurd hbc (by simp [ltChars])
  | cons x xs ih =>
    intro b c hab hbc
    cases b with
    | nil => exact absurd hab (by simp [ltChars])
    | cons y ys =>
      cases c with
      | nil => exact absurd hbc (by simp [ltChars])
      | cons z zs =>
        unfold ltChars at hab hbc ⊢
        by_cases hxy : x < y
        · by_cases hyz : y < z
          · rw [if_pos (lt_trans hxy hyz)]
          · by_cases hzy : z < y
            · rw [if_neg hyz, if_pos hzy] at hbc
              exact absurd hbc (by simp)
            · have hyzeq : y = z := le_antisymm (not_lt.mp hzy) (not_lt.mp hyz)
              subst hyzeq
              rw [if_pos hxy]
        · by_cases hyx : y < x
          · rw [if_neg hxy, if_pos hyx] at hab
            exact absurd hab (by simp)
          · have hxyeq : x = y := le_antisymm (not_lt.mp hyx) (not_lt.mp hxy)
            subst hxyeq
            rw [if_neg (lt_irrefl x), if_neg (lt_irrefl x)] at hab
            by_cases hxz : x < z
            · rw [if_pos hxz]
            · by_cases hzx : z < x
              · rw [if_neg hxz, if_pos hzx] at hbc
                exact absurd hbc (by simp)
              · have hxzeq : x = z := le_antisymm (not_lt.mp hzx) (not_lt.mp hxz)
                subst hxzeq
                rw [if_neg (lt_irrefl x), if_neg (lt_irrefl x)] at hbc ⊢
                exact ih ys zs hab hbc

theorem ltChars_connex : ∀ a b : List Char, a ≠ b →
    ltChars a b = true ∨ ltChars b a = true := by
  intro a
  induction a with
  | nil =>
    intro b hne
    cases b with
    | nil => exact absurd rfl hne
    | cons y ys => left; rfl
  | cons x xs ih =>
    intro b hne
    cases b with
    | nil => right; rfl
    | cons y ys =>
      unfold ltChars
      rcases lt_trichotomy x y with h | h | h
      · left
        rw [if_pos h]
      · subst h
        have hne2 : xs ≠ ys := fun he => hne (by rw [he])
        rw [if_neg (lt_irrefl x), if_neg (lt_irrefl x),
            if_neg (lt_irrefl x), if_neg (lt_irrefl x)]
        exact ih ys hne2
      · right
        rw [if_pos h]

theorem labelLt_irrefl (a : String) : labelLt a a = false := ltChars_irrefl a.data

theorem labelLt_trans {a b c : String} (h1 : labelLt a b = true)
    (h2 : labelLt b c = true) : labelLt a c = true :=
  ltChars_trans a.data b.data c.data h1 h2

theorem labelLt_connex {a b : String} (h : a ≠ b) :
    labelLt a b = true ∨ labelLt b a = true := by
  refine ltChars_connex a.data b.data (fun hd => h ?_)
  cases a
  cases b
  exact congrArg String.mk hd

theorem labelLt_ne {a b : String} (h : labelLt a b = true) : a ≠ b := by
  intro he
  subst he
  rw [labelLt_irrefl] at h
  cases h

theorem mem_linsert (x : String) : ∀ (l : List String) (z : String),
    z ∈ linsert x l → z = x ∨ z ∈ l := by
  intro l
  induction l with
  | nil =>
    intro z h
    simp [linsert] at h
    exact .inl h
  | cons y ys ih =>
    intro z h
    unfold linsert at h
    by_cases h1 : labelLt x y
    · rw [if_pos h1] at h
      rcases List.mem_cons.mp h with h2 | h2
      · exact .inl h2
      · exact .inr h2
    · rw [if_neg h1] at h
      by_cases h2 : x = y
      · rw [if_pos h2] at h
        exact .inr h
      · rw [if_neg h2] at h
        rcases List.mem_cons.mp h with h3 | h3
        · exact .inr (h3 ▸ List.mem_cons_self y ys)
        · rcases ih z h3 with h4 | h4
          · exact .inl h4
          · exact .inr (List.mem_cons_of_mem y h4)

theorem linsert_pairwise (x : String) : ∀ l : List String,
    l.Pairwise (fun a b => labelLt a b = true) →
    (linsert x l).Pairwise (fun a b => labelLt a b = true) := by
  intro l
  induction l with
  | nil =>
    intro _
    simp [linsert]
  | cons y ys ih =>
    intro hp
    obtain ⟨hy, hys⟩ := List.pairwise_cons.mp hp
    unfold linsert
    by_cases h1 : labelLt x y
    · rw [if_pos h1]
      refine List.pairwise_cons.mpr ⟨?_, hp⟩
      intro z hz
      rcases List.mem_cons.mp hz with h2 | h2
      · exact h2 ▸ h1
      · exact labelLt_trans h1 (hy z h2)
    · rw [if_neg h1]
      by_cases h2 : x = y
      · rw [if_pos h2]
        exact hp
      · rw [if_neg h2]
        refine List.pairwise_cons.mpr ⟨?_, ih hys⟩
        intro z hz
        rcases mem_linsert x ys z hz with h3 | h3
        · subst h3
          rcases labelLt_connex h2 with h4 | h4
          · exact absurd h4 h1
          · exact h4
        · exact hy z h3

theorem foldl_linsert_pairwise : ∀ (ls acc : List String),
    acc.Pairwise (fun a b => labelLt a b = true) →
    (ls.foldl (fun a l => linsert l a) acc).Pairwise (fun a b => labelLt a b = true) := by
  intro ls
  induction ls with
  | nil => intro acc h; exact h
  | cons x t ih => intro acc h; exact ih (linsert x acc) (linsert_pairwise x acc h)

theorem mem_foldl_linsert : ∀ (ls acc : List String) (z : String),
    z ∈ ls.foldl (fun a l => linsert l a) acc → z ∈ acc ∨ z ∈ ls := by
  intro ls
  induction ls with
  | nil => intro acc z h; exact .inl h
  | cons x t ih =>
    intro acc z h
    rcases ih (linsert x acc) z h with h2 | h2
    · rcases mem_linsert x acc z h2 with h3 | h3
      · exact .inr (h3 ▸ List.mem_cons_self x t)
      · exact .inl h3
    · exact .inr (List.mem_cons_of_mem x h2)

theorem normalizeLabels_pairwise (ls : List String) :
    (normalizeLabels ls).Pairwise (fun a b => labelLt a b = true) :=
  foldl_linsert_pairwise _ [] List.Pairwise.nil

theorem normalizeLabels_nodup (ls : List String) : (normalizeLabels ls).Nodup :=
  (normalizeLabels_pairwise ls).imp (fun h => labelLt_ne h)

theorem lowerFixed_normToken (s : String) : LowerFixed (normToken s) := by
  intro c hc
  have hc2 : c ∈ (pyStrip s.data).map lowerChar := hc
  obtain ⟨d, _, rfl⟩ := List.mem_map.mp hc2
  exact lowerChar_idem d

theorem normalizeLabels_lower (ls : List String) :
    ∀ z ∈ normalizeLabels ls, LowerFixed z := by
  intro z hz
  rcases mem_foldl_linsert _ [] z hz with h | h
  · cases h
  · have h2 := List.mem_filter.mp h
    obtain ⟨s, _, rfl⟩ := List.mem_map.mp h2.1
    exact lowerFixed_normToken s

theorem closedIte_iff (stat : Status) (n : Nat) :
    ((if stat = Status.closed then some n else none) ≠ (none : Option Nat)
      ↔ stat = Status.closed) := by
  by_cases h : stat = Status.closed
  · rw [if_pos h]
    simp [h]
  · rw [if_neg h]
    simp [h]

theorem taskInv_mkTask (req : CreateReq) (id : String) (now : Nat) (stat : Status)
    (srepo : Option String) : TaskInv (mkTask req id now stat srepo) := by
  unfold TaskInv
  exact ⟨normalizeLabels_pairwise _, normalizeLabels_lower _, closedIte_iff stat now⟩

theorem taskInv_applyPatch {t : Task} {p : Patch} {now : Nat} {t2 : Task}
    (ht : TaskInv t) (h : applyPatch t p now = .ok t2) : TaskInv t2 := by
  obtain ⟨-, -, -, -, -, -, hsn, hss, -, -, hln, hls, -, -, -, -, -, -, -, -⟩ :=
    applyPatch_ok h
  unfold TaskInv at ht ⊢
  refine ⟨?_, ?_, ?_⟩
  · cases hpl : p.labels with
    | none => rw [hln hpl]; exact ht.1
    | some ls => rw [hls ls hpl]; exact normalizeLabels_pairwise ls
  · cases hpl : p.labels with
    | none => rw [hln hpl]; exact ht.2.1
    | some ls => rw [hls ls hpl]; exact normalizeLabels_lower ls
  · cases hps : p.rstatus with
    | none =>
      obtain ⟨hst2, hca⟩ := hsn hps
      rw [hst2, hca]
      exact ht.2.2
    | some s =>
      obtain ⟨-, hca⟩ := hss s hps
      rw [hca]
      exact closedIte_iff t2.status now

theorem taskInv_closeTask (now : Nat) (t : Task) (ht : TaskInv t) :
    TaskInv (closeTask now t) := by
  unfold TaskInv at ht ⊢
  unfold closeTask
  by_cases h : t.status = Status.closed
  · rw [if_pos h]
    exact ht
  · rw [if_neg h]
    exact ⟨ht.1, ht.2.1, by simp⟩

theorem taskInv_reopenTask (now : Nat) (t : Task) (ht : TaskInv t) :
    TaskInv (reopenTask now t) := by
  unfold TaskInv at ht ⊢
  exact ⟨ht.1, ht.2.1, by simp [reopenTask]⟩

theorem taskInv_annotateTask (repo commit : String) (t : Task) (ht : TaskInv t) :
    TaskInv (annotateTask repo commit t).1 := by
  unfold TaskInv at ht ⊢
  unfold annotateTask
  by_cases h : refKey (annotateRef repo commit) ∈ t.refs.map refKey
  · rw [if_pos h]
    exact ht
  · rw [if_neg h]
    exact ht

theorem taskInv_annStep (reqRepo : Option String) (commit : String) (now : Nat)
    (t : Task) (ht : TaskInv t) : TaskInv (annStep reqRepo commit now t).1 :=
  taskInv_annotateTask _ commit (closeTask now t) (taskInv_closeTask now t ht)

theorem taskInv_addRef (r : GitRef) (u : Task) (hu : TaskInv u) :
    TaskInv { u with refs := u.refs ++ [r] } := by
  unfold TaskInv at hu ⊢
  exact hu

theorem taskInv_addLabelsFun (ls : List String) (now : Nat) (u : Task) (hu : TaskInv u) :
    TaskInv { u with labels := normalizeLabels (u.labels ++ ls), updated_at := now } := by
  unfold TaskInv at hu ⊢
  exact ⟨normalizeLabels_pairwise _, normalizeLabels_lower _, hu.2.2⟩

theorem taskInv_removeLabelsFun (rm : List String) (now : Nat) (u : Task)
    (hu : TaskInv u) :
    TaskInv { u with labels := u.labels.filter (fun l => !rm.contains l),
                     updated_at := now } := by
  unfold TaskInv at hu ⊢
  refine ⟨hu.1.sublist (List.filter_sublist _), ?_, hu.2.2⟩
  intro l hl
  exact hu.2.1 l (List.mem_of_mem_filter hl)

theorem taskInv_taskFromRecord (rec : ImportRecord) (stat : Status)
    (storeIds batchIds : List String) (now : Nat) :
    TaskInv (taskFromRecord rec stat storeIds batchIds now) := by
  unfold TaskInv
  exact ⟨normalizeLabels_pairwise _, normalizeLabels_lower _, closedIte_iff stat _⟩

theorem taskInv_overwriteTask (t : Task) (rec : ImportRecord) (stat : Status)
    (storeIds batchIds : List String) (now : Nat) (ht : TaskInv t) :
    TaskInv (overwriteTask t rec stat storeIds batchIds now) := by
  unfold TaskInv at ht ⊢
  refine ⟨?_, ?_, closedIte_iff stat (rec.updated_at.getD now)⟩
  · show (match rec.labels with
          | none => t.labels
          | some ls => normalizeLabels ls).Pairwise (fun a b => labelLt a b = true)
    cases rec.labels with
    | none => exact ht.1
    | some ls => exact normalizeLabels_pairwise ls
  · show ∀ l ∈ (match rec.labels with
          | none => t.labels
          | some ls => normalizeLabels ls), LowerFixed l
    cases rec.labels with
    | none => exact ht.2.1
    | some ls => exact normalizeLabels_lower ls

theorem mem_mapTask {st : List Task} {id : String} {f : Task → Task} {u : Task}
    (h : u ∈ mapTask st id f) : u ∈ st ∨ ∃ t, t ∈ st ∧ u = f t := by
  unfold mapTask at h
  obtain ⟨t, ht, he⟩ := List.mem_map.mp h
  by_cases hid : t.id = id
  · rw [if_pos hid] at he
    exact .inr ⟨t, ht, he.symm⟩
  · rw [if_neg hid] at he
    exact .inl (he ▸ ht)

theorem stInv_mapTask {st : List Task} {id : String} {f : Task → Task}
    (hst : ∀ t ∈ st, TaskInv t)
    (hf : ∀ t ∈ st, TaskInv t → TaskInv (f t)) :
    ∀ u ∈ mapTask st id f, TaskInv u := by
  intro u hu
  rcases mem_mapTask hu with h | ⟨t, ht, rfl⟩
  · exact hst u h
  · exact hf t ht (hst t ht)

theorem createTask_state (req : CreateReq) (id : String) (now : Nat) (st : List Task) :
    (createTask req id now st).1 = st ∨
    ∃ stat srepo, (createTask req id now st).1 = st ++ [mkTask req id now stat srepo] := by
  unfold createTask
  split
  · exact .inl rfl
  · split
    · exact .inl rfl
    · split
      · exact .inl rfl
      · split
        · exact .inl rfl
        · split
          · exact .inl rfl
          · split
            · exact .inl rfl
            · exact .inr ⟨_, _, rfl⟩

theorem updateTask_state (id : String) (p : Patch) (now : Nat) (st : List Task) :
    (updateTask id p now st).1 = st ∨
    ∃ t t2, findTask st id = some t ∧ applyPatch t p now = .ok t2 ∧
      (updateTask id p now st).1 = mapTask st id (fun _ => t2) := by
  unfold updateTask
  split
  · exact .inl rfl
  · rename_i t hft
    split
    · exact .inl rfl
    · split
      · exact .inl rfl
      · rename_i t2 hap
        exact .inr ⟨t, t2, hft, hap, rfl⟩

theorem closeBatch_state (ids : List String) (now : Nat) (st : List Task) :
    (closeBatch ids now st).1 = st ∨
    batchGo (closeTask now) ids st = .ok (closeBatch ids now st).1 := by
  unfold closeBatch
  split
  · rename_i st2 hb
    exact .inr hb
  · exact .inl rfl

theorem reopenBatch_state (ids : List String) (now : Nat) (st : List Task) :
    (reopenBatch ids now st).1 = st ∨
    batchGo (reopenTask now) ids st = .ok (reopenBatch ids now st).1 := by
  unfold reopenBatch
  split
  · rename_i st2 hb
    exact .inr hb
  · exact .inl rfl

theorem closeWithCommit_state (ids : List String) (c : String) (r : Option String)
    (now : Nat) (st : List Task) :
    (closeWithCommit ids c r now st).1 = st ∨
    ∃ reqRepo, (closeWithCommit ids c r now st).1 =
      (closeAnnGo reqRepo (normalizeHash c) now ids st).1 := by
  unfold closeWithCommit
  split
  · exact .inl rfl
  · split
    · exact .inl rfl
    · split
      · exact .inl rfl
      · split
        · exact .inl rfl
        · exact .inr ⟨_, rfl⟩

theorem insertGitRef_state (tid : String) (req : GitRefReq) (st : List Task) :
    (insertGitRef tid req st).1 = st ∨
    ∃ r, (insertGitRef tid req st).1 =
      mapTask st tid (fun u => { u with refs := u.refs ++ [r] }) := by
  unfold insertGitRef
  split
  · exact .inl rfl
  · split
    · exact .inl rfl
    · split
      · exact .inl rfl
      · exact .inr ⟨_, rfl⟩

theorem addLabels_state (id : String) (ls : List String) (now : Nat) (st : List Task) :
    (addLabels id ls now st).1 = st ∨
    (addLabels id ls now st).1 = mapTask st id (fun u =>
      { u with labels := normalizeLabels (u.labels ++ ls), updated_at := now }) := by
  unfold addLabels
  split
  · exact .inl rfl
  · exact .inr rfl

theorem removeLabels_state (id : String) (ls : List String) (now : Nat) (st : List Task) :
    (removeLabels id ls now st).1 = st ∨
    (removeLabels id ls now st).1 = mapTask st id (fun u =>
      { u with labels := u.labels.filter (fun l => !(ls.map normToken).contains l),
               updated_at := now }) := by
  unfold removeLabels
  split
  · exact .inl rfl
  · exact .inr rfl

theorem processRecord_state (ded : DedupeMode) (orph : OrphanMode)
    (batchIds : List String) (now : Nat) (acc : List Task × ImportCounts)
    (rec : ImportRecord) :
    (processRecord ded orph batchIds now acc rec).1 = acc.1 ∨
    (∃ stat, (processRecord ded orph batchIds now acc rec).1 =
       acc.1 ++ [taskFromRecord rec stat (acc.1.map Task.id) batchIds now]) ∨
    (∃ t stat, t ∈ acc.1 ∧ (processRecord ded orph batchIds now acc rec).1 =
       mapTask acc.1 rec.id
         (fun _ => overwriteTask t rec stat (acc.1.map Task.id) batchIds now)) := by
  unfold processRecord
  split
  · exact .inl rfl
  · split
    · exact .inl rfl
    · split
      · exact .inr (.inl ⟨_, rfl⟩)
      · rename_i t hft
        split
        · exact .inl rfl
        · exact .inl rfl
        · exact .inr (.inr ⟨t, _, (findTask_some hft).2, rfl⟩)

theorem stInv_createTask (req : CreateReq) (id : String) (now : Nat) (st : List Task)
    (hst : ∀ t ∈ st, TaskInv t) : ∀ u ∈ (createTask req id now st).1, TaskInv u := by
  intro u hu
  rcases createTask_state req id now st with he | ⟨stat, srepo, he⟩
  · rw [he] at hu
    exact hst u hu
  · rw [he] at hu
    rcases List.mem_append.mp hu with h | h
    · exact hst u h
    · rw [List.mem_singleton.mp h]
      exact taskInv_mkTask req id now stat srepo

theorem stInv_updateTask (id : String) (p : Patch) (now : Nat) (st : List Task)
    (hst : ∀ t ∈ st, TaskInv t) : ∀ u ∈ (updateTask id p now st).1, TaskInv u := by
  intro u hu
  rcases updateTask_state id p now st with he | ⟨t, t2, hft, hap, he⟩
  · rw [he] at hu
    exact hst u hu
  · rw [he] at hu
    have ht2 : TaskInv t2 := taskInv_applyPatch (hst t (findTask_some hft).2) hap
    rcases mem_mapTask hu with h | ⟨t3, ht3, rfl⟩
    · exact hst u h
    · exact ht2

theorem batchGo_inv (f : Task → Task) (hf : ∀ t : Task, TaskInv t → TaskInv (f t)) :
    ∀ (ids : List String) (st st2 : List Task), batchGo f ids st = .ok st2 →
      (∀ t ∈ st, TaskInv t) → ∀ u ∈ st2, TaskInv u := by
  intro ids
  induction ids with
  | nil =>
    intro st st2 h hst
    have h2 : (Except.ok st : Except ErrCode (List Task)) = Except.ok st2 := h
    obtain rfl := Except.ok.inj h2
    exact hst
  | cons id rest ih =>
    intro st st2 h hst
    unfold batchGo at h
    cases hf2 : findTask st id with
    | none =>
      rw [hf2] at h
      cases h
    | some t =>
      rw [hf2] at h
      exact ih (mapTask st id f) st2 h (stInv_mapTask hst (fun t2 _ ht2 => hf t2 ht2))

theorem stInv_closeBatch (ids : List String) (now : Nat) (st : List Task)
    (hst : ∀ t ∈ st, TaskInv t) : ∀ u ∈ (closeBatch ids now st).1, TaskInv u := by
  rcases closeBatch_state ids now st with he | hb
  · rw [he]
    exact hst
  · exact batchGo_inv (closeTask now) (taskInv_closeTask now) ids st _ hb hst

theorem stInv_reopenBatch (ids : List String) (now : Nat) (st : List Task)
    (hst : ∀ t ∈ st, TaskInv t) : ∀ u ∈ (reopenBatch ids now st).1, TaskInv u := by
  rcases reopenBatch_state ids now st with he | hb
  · rw [he]
    exact hst
  · exact batchGo_inv (reopenTask now) (taskInv_reopenTask now) ids st _ hb hst

theorem closeAnnGo_cons_none (reqRepo : Option String) (commit : String) (now : Nat)
    (id : String) (rest : List String) (st : List Task)
    (hf : findTask st id = none) :
    closeAnnGo reqRepo commit now (id :: rest) st =
      closeAnnGo reqRepo commit now rest st := by
  conv_lhs => unfold closeAnnGo
  rw [hf]

theorem closeAnnGo_inv (reqRepo : Option String) (commit : String) (now : Nat) :
    ∀ (ids : List String) (st : List Task), (∀ t ∈ st, TaskInv t) →
      ∀ u ∈ (closeAnnGo reqRepo commit now ids st).1, TaskInv u := by
  intro ids
  induction ids with
  | nil =>
    intro st hst u hu
    exact hst u hu
  | cons id rest ih =>
    intro st hst u hu
    cases hf : findTask st id with
    | none =>
      rw [closeAnnGo_cons_none reqRepo commit now id rest st hf] at hu
      exact ih st hst u hu
    | some t =>
      rw [closeAnnGo_cons_some reqRepo commit now id rest st t hf] at hu
      have ht : TaskInv t := hst t (findTask_some hf).2
      exact ih (mapTask st id (fun _ => (annStep reqRepo commit now t).1))
        (stInv_mapTask hst (fun t2 _ _ => taskInv_annStep reqRepo commit now t ht)) u hu

theorem stInv_closeWithCommit (ids : List String) (c : String) (r : Option String)
    (now : Nat) (st : List Task) (hst : ∀ t ∈ st, TaskInv t) :
    ∀ u ∈ (closeWithCommit ids c r now st).1, TaskInv u := by
  rcases closeWithCommit_state ids c r now st with he | ⟨reqRepo, he⟩
  · rw [he]
    exact hst
  · rw [he]
    exact closeAnnGo_inv reqRepo (normalizeHash c) now ids st hst

theorem stInv_insertGitRef (tid : String) (req : GitRefReq) (st : List Task)
    (hst : ∀ t ∈ st, TaskInv t) : ∀ u ∈ (insertGitRef tid req st).1, TaskInv u := by
  rcases insertGitRef_state tid req st with he | ⟨r, he⟩
  · rw [he]
    exact hst
  · rw [he]
    exact stInv_mapTask hst (fun t2 _ ht2 => taskInv_addRef r t2 ht2)

theorem stInv_addLabels (id : String) (ls : List String) (now : Nat) (st : List Task)
    (hst : ∀ t ∈ st, TaskInv t) : ∀ u ∈ (addLabels id ls now st).1, TaskInv u := by
  rcases addLabels_state id ls now st with he | he
  · rw [he]
    exact hst
  · rw [he]
    exact stInv_mapTask hst (fun t2 _ ht2 => taskInv_addLabelsFun ls now t2 ht2)

theorem stInv_removeLabels (id : String) (ls : List String) (now : Nat) (st : List Task)
    (hst : ∀ t ∈ st, TaskInv t) : ∀ u ∈ (removeLabels id ls now st).1, TaskInv u := by
  rcases removeLabels_state id ls now st with he | he
  · rw [he]
    exact hst
  · rw [he]
    exact stInv_mapTask hst
      (fun t2 _ ht2 => taskInv_removeLabelsFun (ls.map normToken) now t2 ht2)

theorem processRecord_inv (ded : DedupeMode) (orph : OrphanMode)
    (batchIds : List String) (now : Nat) (acc : List Task × ImportCounts)
    (rec : ImportRecord) (hst : ∀ t ∈ acc.1, TaskInv t) :
    ∀ u ∈ (processRecord ded orph batchIds now acc rec).1, TaskInv u := by
  intro u hu
  rcases processRecord_state ded orph batchIds now acc rec with
    he | ⟨stat, he⟩ | ⟨t, stat, ht, he⟩
  · rw [he] at hu
    exact hst u hu
  · rw [he] at hu
    rcases List.mem_append.mp hu with h | h
    · exact hst u h
    · rw [List.mem_singleton.mp h]
      exact taskInv_taskFromRecord rec stat (acc.1.map Task.id) batchIds now
  · rw [he] at hu
    rcases mem_mapTask hu with h | ⟨t3, ht3, rfl⟩
    · exact hst u h
    · exact taskInv_overwriteTask t rec stat (acc.1.map Task.id) batchIds now (hst t ht)

theorem stInv_importBatch (ded : DedupeMode) (orph : OrphanMode)
    (recs : List ImportRecord) (now : Nat) (st : List Task)
    (hst : ∀ t ∈ st, TaskInv t) : ∀ u ∈ (importBatch ded orph recs now st).1, TaskInv u := by
  have key : ∀ (rs : List ImportRecord) (acc : List Task × ImportCounts),
      (∀ t ∈ acc.1, TaskInv t) →
      ∀ u ∈ (rs.foldl (processRecord ded orph (recs.map ImportRecord.id) now) acc).1,
        TaskInv u := by
    intro rs
    induction rs with
    | nil =>
      intro acc ha u hu
      exact ha u hu
    | cons rc rs2 ih =>
      intro acc ha u hu
      exact ih _ (processRecord_inv ded orph (recs.map ImportRecord.id) now acc rc ha) u hu
  intro u hu
  exact key recs (st, { created := 0, skipped := 0, errors := 0, messages := [] }) hst u hu

/-- C2: in every store reachable from the empty store through the engine
operations (create, update, batch close/reopen, close-with-commit, git-ref
insert, label add/remove, import), every task's label list is strictly
sorted (hence duplicate-free) and entirely lowercase, and its `closed_at`
timestamp is non-null exactly when its status is `closed`. -/
theorem C2_reachable_invariants (st : List Task) (h : Reachable st) :
    ∀ t ∈ st, t.labels.Pairwise (fun a b => labelLt a b = true) ∧
      t.labels.Nodup ∧
      (∀ l ∈ t.labels, ∀ c ∈ l.data, lowerChar c = c) ∧
      (t.closed_at ≠ none ↔ t.status = Status.closed) := by
  have hinv : ∀ u ∈ st, TaskInv u := by
    induction h with
    | init =>
      intro u hu
      cases hu
    | create st2 req id now hr ih => exact stInv_createTask req id now st2 ih
    | update st2 id p now hr ih => exact stInv_updateTask id p now st2 ih
    | close st2 ids now hr ih => exact stInv_closeBatch ids now st2 ih
    | reopen st2 ids now hr ih => exact stInv_reopenBatch ids now st2 ih
    | closeCommit st2 ids c r now hr ih => exact stInv_closeWithCommit ids c r now st2 ih
    | insertRef st2 tid req hr ih => exact stInv_insertGitRef tid req st2 ih
    | addLab st2 id ls now hr ih => exact stInv_addLabels id ls now st2 ih
    | removeLab st2 id ls now hr ih => exact stInv_removeLabels id ls now st2 ih
    | imp st2 ded orph recs now hr ih => exact stInv_importBatch ded orph recs now st2 ih
  intro t ht
  have h3 := hinv t ht
  unfold TaskInv at h3
  obtain ⟨h1, h2, hc⟩ := h3
  exact ⟨h1, h1.imp (fun hab => labelLt_ne hab), h2, hc⟩

/-- C2 witness: the store produced by one successful create is reachable,
and its stored task satisfies every invariant component. -/
theorem C2_witness :
    wTask ∈ wSt ∧
    (wTask.labels.Pairwise (fun a b => labelLt a b = true) ∧
     wTask.labels.Nodup ∧
     (∀ l ∈ wTask.labels, ∀ c ∈ l.data, lowerChar c = c) ∧
     (wTask.closed_at ≠ none ↔ wTask.status = Status.closed)) :=
  ⟨by decide,
   C2_reachable_invariants wSt
     (Reachable.create [] wReq "gr-aa11" 0 Reachable.init) wTask (by decide)⟩

end Grns
